import Mathlib

/-!
Verification development for the cordfeeder feed aggregator.

The definitions below are shallow embeddings of the Python source:

* `cordfeeder/poller.py` — `calculate_adaptive_interval`, the status
  dispatch of `fetch_feed`, the per-branch state updates of `_poll_feed`,
  `_schedule_next_poll`, `_post_item`, and the new-item cap.
* `cordfeeder/parser.py` — `_truncate`, `_strip_boilerplate`,
  `_majority_common_prefix` / `_majority_common_suffix`, and the per-item
  field extraction of `parse_feed`.
* `cordfeeder/formatter.py` — `sanitise_mentions`, `_sanitise_markdown`,
  `_sanitise_url`, `_strip_newlines`, `format_item_message`.
* `cordfeeder/database.py` — the posted-items journal semantics
  (`record_posted_item`, `is_item_posted`) as a set of
  `(feed_id, item_guid)` pairs.

Python strings are modelled as `List Char` where character-level
operations matter (parser, formatter) and as `String` elsewhere; Python
ints are `Int` (or `Nat` where the source value is a count); timestamps
carry epoch seconds as `Int`; float arithmetic appearing in the source
(`sum(gaps) / len(gaps)`, `int(x)`, `len(strings) * 0.8`) is modelled
with exact rationals, Python's `int()` truncation (`pyInt`), and
`4 * n / 5` respectively; `random.uniform(0, b)` jitter is modelled by an
explicit nonnegative parameter bounded by the same fraction of `b`.
-/

/-! ## Poller: adaptive interval (`calculate_adaptive_interval`) -/

/-- One step of a descending insertion sort; models `sorted(ts, reverse=True)`
(the sorted-descending list of a multiset is unique, so the sorting
algorithm itself is irrelevant). -/
def sortDescInsert (x : Int) : List Int → List Int
  | [] => [x]
  | y :: ys => if y ≤ x then x :: y :: ys else y :: sortDescInsert x ys

/-- Descending sort, models `sorted(timestamps, reverse=True)`. -/
def sortDesc (l : List Int) : List Int := l.foldr sortDescInsert []

/-- Consecutive differences: models
`[(sorted_ts[i] - sorted_ts[i+1]).total_seconds() for i in range(len-1)]`. -/
def gapsOf : List Int → List Int
  | a :: b :: rest => (a - b) :: gapsOf (b :: rest)
  | _ => []

/-- Python `int()` applied to a real number: truncation toward zero. -/
def pyInt (q : ℚ) : Int := if 0 ≤ q then ⌊q⌋ else ⌈q⌉

/-- Mean of the gaps of an (already sorted) timestamp list:
models `avg_gap = sum(gaps) / len(gaps)`. -/
def meanGap (sorted : List Int) : ℚ :=
  (((gapsOf sorted).sum : Int) : ℚ) / ((gapsOf sorted).length : ℚ)

/-- Embedding of `calculate_adaptive_interval` (poller.py lines 22-43):
sort descending, take consecutive gaps, halve the mean gap (`int(avg/2)`),
clamp with `max(min_interval, min(interval, max_interval))`; `None` when
fewer than two timestamps. -/
def calculateAdaptiveInterval (timestamps : List Int)
    (minInterval maxInterval : Int) : Option Int :=
  if timestamps.length < 2 then none
  else
    let sortedTs := sortDesc timestamps
    let interval := pyInt (meanGap sortedTs / 2)
    some (max minInterval (min interval maxInterval))

/-! ## Poller: fetch status dispatch (`fetch_feed`) -/

/-- Outcome of one fetch, one constructor per arm of the status dispatch in
`fetch_feed` (poller.py lines 159-216).  The 200 arm carries the body that
`resp.text()` returned and that is handed to `parse_feed` — the source has
no size check on it. -/
inductive FetchOutcome where
  | notModified
  | gone
  | rateLimited (retryAfter : Option Int)
  | serverError (status : Nat)
  | httpError (status : Nat)
  | fresh (body : String)
  deriving DecidableEq

/-- Models `int(retry_raw) if retry_raw else None` under `try/except`:
a numeric `Retry-After` parses, anything else (including an HTTP-date)
yields `none`. -/
def parseRetryAfter (raw : Option String) : Option Int :=
  raw.bind (fun s => s.toInt?)

/-- Embedding of the status classification of `fetch_feed`
(poller.py lines 177-216): 304, 410, 429/403, 5xx, other non-200, and the
200 arm which returns the body unconditionally. -/
def fetchClassify (status : Nat) (retryAfterRaw : Option String)
    (body : String) : FetchOutcome :=
  if status = 304 then .notModified
  else if status = 410 then .gone
  else if status = 429 ∨ status = 403 then .rateLimited (parseRetryAfter retryAfterRaw)
  else if 500 ≤ status ∧ status < 600 then .serverError status
  else if status ≠ 200 then .httpError status
  else .fresh body

/-- A body of 10 MiB + 1 bytes. -/
def oversizedBody : String := String.mk (List.replicate (10 * 1048576 + 1) 'a')

/-! ## Poller: per-feed state updates (`_poll_feed`, `_schedule_next_poll`) -/

/-- The polling-state columns of a feed row that `_poll_feed` touches. -/
structure FeedState where
  pollInterval : Int
  consecutiveErrors : Nat
  lastPollAt : Option Int
  nextPollAt : Option Int
  lastError : Option String
  deriving DecidableEq

/-- Embedding of `_schedule_next_poll` (poller.py lines 356-367):
persists `last_poll_at = now`, `next_poll_at = now + int(interval + jitter)`
and `poll_interval = interval`.  The jitter `random.uniform(0, 0.25 * interval)`
is modelled by the integer parameter `j` (`int(interval + jitter)` equals
`interval + ⌊jitter⌋` for integer `interval` and nonnegative jitter);
callers constrain `0 ≤ j`. -/
def scheduleNextPoll (st : FeedState) (now interval j : Int) : FeedState :=
  { st with
    lastPollAt := some now
    nextPollAt := some (now + interval + j)
    pollInterval := interval }

/-- Python `x or y` on an optional int: `None` and `0` are falsy. -/
def pyOrInt (o : Option Int) (d : Int) : Int :=
  match o with
  | some v => if v = 0 then d else v
  | none => d

/-- The 304 arm of `_poll_feed` (poller.py lines 228-233): reschedule at the
current interval (`feed_info.get("poll_interval", default)`), reset the
error counter. -/
def pollFeedNotModified (st : FeedState) (now : Int) (stored : Option Int)
    (dflt : Int) (j : Int) : FeedState :=
  { scheduleNextPoll st now (stored.getD dflt) j with consecutiveErrors := 0 }

/-- The fresh-content tail of `_poll_feed` (poller.py lines 250-262):
`interval = adaptive or feed_info.get("poll_interval", default)`, then
schedule and reset the error counter.  `adaptive` is the result of
`calculate_adaptive_interval`. -/
def pollFeedFresh (st : FeedState) (now : Int) (stored : Option Int)
    (dflt : Int) (adaptive : Option Int) (j : Int) : FeedState :=
  { scheduleNextPoll st now (pyOrInt adaptive (stored.getD dflt)) j with
    consecutiveErrors := 0 }

/-- Embeds `max(exc.retry_after or 0, 14400)` from the rate-limit arm of
`_poll_feed` (poller.py lines 286-293). -/
def rateLimitBackoff (retryAfter : Option Int) : Int :=
  max (pyOrInt retryAfter 0) 14400

/-- The rate-limit arm of `_poll_feed`: schedule at the backoff; the error
counter is not touched (no `update_feed_state(consecutive_errors=...)`
call in this arm). -/
def pollFeedRateLimited (st : FeedState) (now : Int) (retryAfter : Option Int)
    (j : Int) : FeedState :=
  scheduleNextPoll st now (rateLimitBackoff retryAfter) j

/-- The catch-all error arm of `_poll_feed` (poller.py lines 295-311):
`errors = consecutive_errors + 1`;
`backoff = int(min(base * 2 ** errors, 86400) + uniform(0, backoff * 0.1))`,
modelled as `min(base * 2 ^ errors, 86400) + j10` with `0 ≤ j10` bounded by
a tenth of the backoff; persist the error count and message, then schedule
(which persists `poll_interval = backoff`). -/
def pollFeedError (st : FeedState) (now : Int) (stored : Option Int)
    (dflt : Int) (errMsg : String) (j10 j25 : Int) : FeedState :=
  let errors := st.consecutiveErrors + 1
  let backoff := min (stored.getD dflt * 2 ^ errors) 86400 + j10
  { scheduleNextPoll st now backoff j25 with
    consecutiveErrors := errors
    lastError := some errMsg }

/-! ## Poller: new-item cap (`_poll_feed` lines 241-244) -/

/-- Embedding of the cap applied to the unposted items:
`if len(new_items) > max: new_items = new_items[-max:]` then
`new_items = list(reversed(new_items))`.  `xs[-n:]` for `len(xs) > n` is
`drop (len - n)`. -/
def capNewItems (newItems : List String) (maxItems : Nat) : List String :=
  (if maxItems < newItems.length then
      newItems.drop (newItems.length - maxItems)
    else newItems).reverse

/-! ## Parser: character-level helpers (`parser.py`) -/

/-- Python whitespace (`str.strip` family, `str.split()`), modelled as the
ASCII whitespace set. -/
def pyIsSpace (c : Char) : Bool :=
  c == ' ' || c == '\t' || c == '\n' || c == '\r' || c == '\x0b' || c == '\x0c'

/-- Embeds `s.lstrip()`. -/
def pyLstrip (l : List Char) : List Char := l.dropWhile pyIsSpace

/-- Embeds `s.rstrip()`. -/
def pyRstrip (l : List Char) : List Char := (l.reverse.dropWhile pyIsSpace).reverse

/-- Embeds `s.strip()`. -/
def pyStrip (l : List Char) : List Char := pyRstrip (pyLstrip l)

/-- Embeds `min(strings, key=len)`: the first string of minimal length
(Python `min` keeps the earliest of equals). -/
def pyMinByLen : List (List Char) → List Char
  | [] => []
  | s :: rest => rest.foldl (fun acc t => if t.length < acc.length then t else acc) s

/-- Embeds `sum(1 for s in strings if s.startswith(candidate))`. -/
def countStartsWith (strings : List (List Char)) (cand : List Char) : Nat :=
  (strings.filter (fun s => cand.isPrefixOf s)).length

/-- Embeds `sum(1 for s in strings if s.endswith(candidate))`. -/
def countEndsWith (strings : List (List Char)) (cand : List Char) : Nat :=
  (strings.filter (fun s => cand.isSuffixOf s)).length

/-- Embeds `candidate.rfind(c)` as an optional index (Python returns -1 for none). -/
def lastIdxOf (c : Char) (l : List Char) : Option Nat :=
  match l.reverse.findIdx? (fun d => d == c) with
  | some i => some (l.length - 1 - i)
  | none => none

/-- The shrink loop of `_majority_common_prefix` (`candidate = candidate[:-1]`
until at least `threshold` strings start with it), run on the reversed
candidate so the recursion is structural: dropping the candidate's last
character is taking the tail of its reversal. -/
def mcpLoopAux (strings : List (List Char)) (threshold : Nat) :
    List Char → List Char
  | [] => []
  | c :: rest =>
    if threshold ≤ countStartsWith strings ((c :: rest).reverse) then
      (c :: rest).reverse
    else mcpLoopAux strings threshold rest

/-- The candidate-shrinking loop of `_majority_common_prefix`. -/
def mcpLoop (strings : List (List Char)) (threshold : Nat)
    (cand : List Char) : List Char :=
  mcpLoopAux strings threshold cand.reverse

/-- Embedding of `_majority_common_prefix` (parser.py lines 93-112):
threshold `max(2, int(len * 0.8))` (the float product modelled as
`4 * n / 5`), candidate seeded with the shortest string, then snapped back
to the last space (`candidate[: last_space + 1]`, or `""` without one). -/
def majorityCommonPrefix (strings : List (List Char)) : List Char :=
  match strings with
  | [] => []
  | s :: rest =>
    let threshold := max 2 (4 * (s :: rest).length / 5)
    let cand := mcpLoop (s :: rest) threshold (pyMinByLen (s :: rest))
    match lastIdxOf ' ' cand with
    | some i => cand.take (i + 1)
    | none => []

/-- The shrink loop of `_majority_common_suffix`: drop the candidate's first
character (`candidate = candidate[1:]`) until at least `threshold` strings
end with it. -/
def mcsLoop (strings : List (List Char)) (threshold : Nat) :
    List Char → List Char
  | [] => []
  | c :: rest =>
    if threshold ≤ countEndsWith strings (c :: rest) then c :: rest
    else mcsLoop strings threshold rest

/-- Embedding of `_majority_common_suffix` (parser.py lines 115-132):
snapped forward to the first space (`candidate[first_space + 1:]`). -/
def majorityCommonSuffix (strings : List (List Char)) : List Char :=
  match strings with
  | [] => []
  | s :: rest =>
    let threshold := max 2 (4 * (s :: rest).length / 5)
    let cand := mcsLoop (s :: rest) threshold (pyMinByLen (s :: rest))
    match cand.findIdx? (fun d => d == ' ') with
    | some i => cand.drop (i + 1)
    | none => []

/-- Embeds `_BOILERPLATE_MIN_LEN`. -/
def boilerplateMinLen : Nat := 20

/-- The common-prefix half of `_strip_boilerplate` (parser.py lines 70-76):
when the majority prefix is at least 20 characters, cut it from every
string that starts with it and `lstrip` the remainder. -/
def stripPrefixStage (summaries : List (List Char)) : List (List Char) :=
  let p := majorityCommonPrefix summaries
  if boilerplateMinLen ≤ p.length then
    summaries.map (fun s => if p.isPrefixOf s then pyLstrip (s.drop p.length) else s)
  else summaries

/-- The common-suffix half of `_strip_boilerplate` (parser.py lines 78-84):
`s[: -len(suffix)].rstrip()` on every string ending with the suffix. -/
def stripSuffixStage (summaries : List (List Char)) : List (List Char) :=
  let suf := majorityCommonSuffix summaries
  if boilerplateMinLen ≤ suf.length then
    summaries.map (fun s =>
      if suf.isSuffixOf s then pyRstrip (s.take (s.length - suf.length)) else s)
  else summaries

/-- Embedding of `_strip_boilerplate` (parser.py lines 58-86): identity for
fewer than two summaries, otherwise the prefix pass followed by the suffix
pass (the suffix is computed on the prefix-stripped strings). -/
def stripBoilerplate (summaries : List (List Char)) : List (List Char) :=
  if summaries.length < 2 then summaries
  else stripSuffixStage (stripPrefixStage summaries)

/-- Total character count of a summary batch. -/
def totalLen (l : List (List Char)) : Nat := (l.map List.length).sum

/-- First summary of the boilerplate-trim counterexample. -/
def bpS1 : List Char :=
  "AAAAAAAAAA BBBBBBBBBB CCCCC          SUFFSUFFSUFFSUFFSUFFSUFF".data

/-- Second summary of the boilerplate-trim counterexample. -/
def bpS2 : List Char :=
  "AAAAAAAAAA BBBBBBBBBB CCCCC DDDDDDDDDDDDDDDDDDDDDD END2222222".data

/-- Third summary of the boilerplate-trim counterexample. -/
def bpS3 : List Char :=
  "qqqqqqqqqqqqqqqqqqqqqqqqqqqqqq SUFFSUFFSUFFSUFFSUFFSUFF".data

/-! ## Parser: truncation and per-item extraction (`_truncate`, `parse_feed`) -/

/-- Embedding of `_truncate` (parser.py lines 41-50): cut to `max_len`,
back up to the last space when one exists at a positive index, append
`"..."`. -/
def truncateText (text : List Char) (maxLen : Nat) : List Char :=
  if text.length ≤ maxLen then text
  else
    let truncated := text.take maxLen
    let cut := match lastIdxOf ' ' truncated with
      | some i => if 0 < i then truncated.take i else truncated
      | none => truncated
    cut ++ ['.', '.', '.']

/-- Python `a or b` on strings: the empty string is falsy. -/
def pyOrChars (a b : List Char) : List Char := if a.isEmpty then b else a

/-- The entry fields `parse_feed` reads (`entry.get(...)`). -/
structure RawEntry where
  title : Option (List Char)
  link : Option (List Char)
  entryId : Option (List Char)
  summary : Option (List Char)
  description : Option (List Char)
  author : Option (List Char)
  published : Option (List Char)

/-- A parsed item, mirroring the `FeedItem` dataclass. -/
structure FeedItemE where
  title : List Char
  link : List Char
  guid : List Char
  summary : List Char
  author : Option (List Char)
  published : Option (List Char)
  imageUrl : Option (List Char)

/-- Embedding of the `FeedItem` construction in `parse_feed`
(parser.py lines 199-210): `title = entry.get("title", "")`,
`guid = entry.get("id", "") or entry.get("link", "")`, summary truncated at
300; `cleanedSummary` is the batch-stripped summary and `image` the result
of `_extract_image` (whose media-tag walk is not modelled further). -/
def buildFeedItem (entry : RawEntry) (cleanedSummary : List Char)
    (image : Option (List Char)) : FeedItemE :=
  { title := entry.title.getD []
    link := entry.link.getD []
    guid := pyOrChars (entry.entryId.getD []) (entry.link.getD [])
    summary := truncateText cleanedSummary 300
    author := entry.author
    published := entry.published
    imageUrl := image }

/-- Modelled from the spec: "`title`: document-provided title; if absent,
synthesize from the first 80 characters of the cleaned summary, truncated
at a word boundary with an ellipsis suffix when shortened."  The synthesis
code this describes (also asserted by the repo's `TestTitleSynthesis`
tests) is absent from `parse_feed`. -/
def specSynthesizedTitle (docTitle : Option (List Char))
    (cleanedSummary : List Char) : List Char :=
  match docTitle with
  | some t => t
  | none => truncateText cleanedSummary 80

/-- The title-less Mastodon-style entry from the repo's own test suite. -/
def mastodonSummary : List Char :=
  "Does Apple still not have any official accounts on Mastodon or Bluesky?".data

/-! ## Journal and at-most-once delivery (`database.py`, `_poll_feed`, `_post_item`) -/

/-- The posted-items journal, keyed by `(feed_id, item_guid)`: the
`UNIQUE(feed_id, item_guid)` index makes it a set of pairs. -/
def isItemPosted (journal : List (Nat × String)) (feedId : Nat)
    (guid : String) : Bool :=
  decide ((feedId, guid) ∈ journal)

/-- Embeds `record_posted_item` (database.py lines 206-217): `INSERT OR IGNORE`
under the unique key — inserting an existing key leaves the journal
unchanged. -/
def recordPostedItem (journal : List (Nat × String)) (feedId : Nat)
    (guid : String) : List (Nat × String) :=
  if (feedId, guid) ∈ journal then journal else (feedId, guid) :: journal

/-- One poll cycle, as far as delivery accounting is concerned: the feed id
and the guids of the fetched document's items in document order. -/
structure PollCycle where
  feedId : Nat
  docGuids : List String

/-- The unposted filter of `_poll_feed` (lines 236-239): every item's guid
is checked against the journal before any posting of this cycle happens. -/
def filterNew (journal : List (Nat × String)) (feedId : Nat)
    (doc : List String) : List String :=
  doc.filter (fun g => ! isItemPosted journal feedId g)

/-- The guids handed to `_post_item` in one cycle: filter, cap at
`max_items_per_poll` = 5, reverse (poller.py lines 236-248). -/
def cycleNewItems (journal : List (Nat × String)) (c : PollCycle) :
    List String :=
  capNewItems (filterNew journal c.feedId c.docGuids) 5

/-- Posting loop of `_poll_feed` (lines 247-248): `_post_item` journals the
item in every path — channel unresolved, send succeeded, send failed
(poller.py lines 313-354) — and invokes the sink at most once per call, so
the journal after the loop is the fold of `recordPostedItem`. -/
def postItems (journal : List (Nat × String)) (feedId : Nat)
    (items : List String) : List (Nat × String) :=
  items.foldl (fun jl g => recordPostedItem jl feedId g) journal

/-- One full cycle: the journal after posting, and the `(feed, guid)` pairs
handed to the sink path, in posting order. -/
def runCycle (journal : List (Nat × String)) (c : PollCycle) :
    List (Nat × String) × List (Nat × String) :=
  let items := cycleNewItems journal c
  (postItems journal c.feedId items, items.map (fun g => (c.feedId, g)))

/-- A process lifetime: run the cycles in order, accumulating every
`(feed, guid)` pair handed to the sink path. -/
def runTrace (journal : List (Nat × String)) : List PollCycle → List (Nat × String)
  | [] => []
  | c :: cs => (runCycle journal c).2 ++ runTrace (runCycle journal c).1 cs

/-! ## Formatter (`formatter.py`) -/

/-- The zero-width space U+200B inserted by `sanitise_mentions`. -/
def zwsp : Char := Char.ofNat 0x200B

/-- The optional `[!&]` marker of a `<@...>` mention: split it off the text
following `<@`. -/
def userMentionMarker : List Char → List Char × List Char
  | [] => ([], [])
  | c :: r =>
    if c = '!' then (['!'], r)
    else if c = '&' then (['&'], r)
    else ([], c :: r)

/-- Matcher for the `<@[!&]?\d+>` alternative of `_MENTION_RE` at the head
of the text: optional `!` or `&` marker, one or more digits, closing `>`.
Returns the matched token and the remainder. -/
def matchUserMention (l : List Char) : Option (List Char × List Char) :=
  match l with
  | c1 :: c2 :: rest =>
    if c1 = '<' ∧ c2 = '@' then
      if ((userMentionMarker rest).2.takeWhile Char.isDigit).isEmpty then none
      else if ((userMentionMarker rest).2.dropWhile Char.isDigit).head? = some '>' then
        some ('<' :: '@' :: ((userMentionMarker rest).1
            ++ (userMentionMarker rest).2.takeWhile Char.isDigit ++ ['>']),
          ((userMentionMarker rest).2.dropWhile Char.isDigit).tail)
      else none
    else none
  | _ => none

/-- Matcher for `_MENTION_RE` = `@(everyone|here)|<@[!&]?\d+>` at the head
of the text (the alternatives are mutually exclusive at a fixed
position). -/
def matchMention (l : List Char) : Option (List Char × List Char) :=
  if "@everyone".data.isPrefixOf l then some ("@everyone".data, l.drop 9)
  else if "@here".data.isPrefixOf l then some ("@here".data, l.drop 5)
  else matchUserMention l

/-- Embeds `m.group(0).replace("@", "@\u200b")`: a zero-width space after every
`@` of the matched token. -/
def neutraliseToken (tok : List Char) : List Char :=
  tok.foldr (fun c acc => if c = '@' then '@' :: zwsp :: acc else c :: acc) []

/-- Left-to-right scan of `re.sub`: at each position replace the leftmost
match and continue after it.  Structural on an explicit fuel (one unit per
consumed position; callers pass the text's length). -/
def sanitiseMentionsGo : Nat → List Char → List Char
  | 0, _ => []
  | Nat.succ f, l =>
    match l with
    | [] => []
    | c :: rest =>
      match matchMention (c :: rest) with
      | some (tok, rem) => neutraliseToken tok ++ sanitiseMentionsGo f rem
      | none => c :: sanitiseMentionsGo f rest

/-- Embedding of `sanitise_mentions` (formatter.py lines 30-32). -/
def sanitiseMentions (l : List Char) : List Char :=
  sanitiseMentionsGo l.length l

/-- The mention tokens of `_MENTION_RE`: `@everyone`, `@here`, and
`<@[!&]?digits>`.  A chat platform interprets exactly these raw character
sequences as mentions. -/
inductive IsMentionToken : List Char → Prop where
  | everyone : IsMentionToken "@everyone".data
  | here : IsMentionToken "@here".data
  | user (m ds : List Char) (hm : m = [] ∨ m = ['!'] ∨ m = ['&'])
      (hne : ds ≠ []) (hds : ∀ c ∈ ds, c.isDigit) :
      IsMentionToken ('<' :: '@' :: (m ++ ds ++ ['>']))

/-- Characters that can occur in a mention token. -/
def tokenChar (c : Char) : Bool :=
  c == '@' || c == '<' || c == '>' || c == '!' || c == '&' || c.isDigit ||
    c == 'e' || c == 'v' || c == 'r' || c == 'y' || c == 'o' || c == 'n' ||
    c == 'h'

/-- No mention token occurs anywhere in the text. -/
def noMention (l : List Char) : Prop :=
  ∀ t, IsMentionToken t → ¬ t <:+: l

/-- The `_MD_SPECIAL` translation table of `_sanitise_markdown`: a
backslash before each Discord-markdown special character (the sixth entry
is the backquote, written via its code point). -/
def mdEscapeChar (c : Char) : List Char :=
  if c = '*' || c = '_' || c = '~' || c = Char.ofNat 96 || c = '|' ||
      c = '>' || c = '[' || c = ']' then ['\\', c]
  else [c]

/-- Embedding of `_sanitise_markdown` (formatter.py lines 35-37). -/
def sanitiseMarkdown (l : List Char) : List Char := l.flatMap mdEscapeChar

/-- Embedding of `_strip_newlines` (formatter.py lines 62-64):
`text.replace("\n", " ").replace("\r", "")`. -/
def stripNewlines (l : List Char) : List Char :=
  (l.map (fun c => if c = '\n' then ' ' else c)).filter (fun c => !(c == '\r'))

/-- Embeds `url.lower().startswith(("http://", "https://"))` (ASCII lowering). -/
def startsWithHttp (l : List Char) : Bool :=
  "http://".data.isPrefixOf (l.map Char.toLower) ||
    "https://".data.isPrefixOf (l.map Char.toLower)

/-- Embeds `url.strip().split()[0] if url.strip() else ""`: the first
whitespace-free chunk of the stripped URL. -/
def urlFirstChunk (url : List Char) : List Char :=
  if (pyStrip url).isEmpty then []
  else (pyStrip url).takeWhile (fun c => ! pyIsSpace c)

/-- Embeds `url.replace(">", "%3E")` applied to the first chunk. -/
def urlEncoded (url : List Char) : List Char :=
  (urlFirstChunk url).flatMap (fun c => if c = '>' then "%3E".data else [c])

/-- Embedding of `_sanitise_url` (formatter.py lines 40-59): empty input
stays empty; otherwise strip, keep the first whitespace-free chunk,
encode `>` as `%3E`, and require an http/https scheme. -/
def sanitiseUrl (url : List Char) : List Char :=
  if url.isEmpty then []
  else if startsWithHttp (urlEncoded url) then urlEncoded url
  else []

/-- Embeds `sep.join(parts)`. -/
def joinSep (sep : List Char) : List (List Char) → List Char
  | [] => []
  | [x] => x
  | x :: y :: rest => x ++ sep ++ joinSep sep (y :: rest)

/-- Embeds `str.splitlines` scan: split on `\n`, `\r`, and `\r\n`, no trailing
empty chunk after a final terminator. -/
def splitLinesGo (cur : List Char) : List Char → List (List Char)
  | [] => [cur.reverse]
  | [c] =>
    if c = '\r' || c = '\n' then [cur.reverse] else [(c :: cur).reverse]
  | c :: c2 :: rest =>
    if c = '\r' then
      if c2 = '\n' then
        if rest.isEmpty then [cur.reverse]
        else cur.reverse :: splitLinesGo [] rest
      else cur.reverse :: splitLinesGo [] (c2 :: rest)
    else if c = '\n' then
      cur.reverse :: splitLinesGo [] (c2 :: rest)
    else splitLinesGo (c :: cur) (c2 :: rest)

/-- Embeds `text.splitlines()` (empty for the empty string). -/
def splitLines (l : List Char) : List (List Char) :=
  if l.isEmpty then [] else splitLinesGo [] l

/-- Embeds `"\n".join(f"> {line}" for line in lines)`. -/
def joinQuoted : List (List Char) → List Char
  | [] => []
  | [x] => "> ".data ++ x
  | x :: y :: rest => "> ".data ++ x ++ '\n' :: joinQuoted (y :: rest)

/-- Embeds `safe_name = _strip_newlines(sanitise_mentions(feed_name))`. -/
def fmtSafeName (feedName : List Char) : List Char :=
  stripNewlines (sanitiseMentions feedName)

/-- Embeds `safe_title = _strip_newlines(sanitise_mentions(_sanitise_markdown(item.title)))`. -/
def fmtSafeTitle (item : FeedItemE) : List Char :=
  stripNewlines (sanitiseMentions (sanitiseMarkdown item.title))

/-- Embeds `safe_summary = sanitise_mentions(item.summary) if item.summary else ""`. -/
def fmtSafeSummary (item : FeedItemE) : List Char :=
  if item.summary.isEmpty then [] else sanitiseMentions item.summary

/-- Embeds `safe_image = _sanitise_url(item.image_url) if item.image_url else None`. -/
def fmtSafeImage (item : FeedItemE) : Option (List Char) :=
  item.imageUrl.map sanitiseUrl

/-- The linked-title header part: `[title](<link>)` when the sanitised link
is nonempty, the bare title otherwise. -/
def fmtTitlePart (item : FeedItemE) : List Char :=
  if (sanitiseUrl item.link).isEmpty then fmtSafeTitle item
  else "[".data ++ fmtSafeTitle item ++ "](<".data
    ++ sanitiseUrl item.link ++ ">)".data

/-- The optional date element of the header parts (a falsy date string is
not appended). -/
def fmtDateParts (dateStr : Option (List Char)) : List (List Char) :=
  match dateStr with
  | some d => if d.isEmpty then [] else [d]
  | none => []

/-- The header line `" · ".join(parts)`. -/
def fmtHeader (item : FeedItemE) (feedName : List Char)
    (dateStr : Option (List Char)) : List Char :=
  joinSep " · ".data
    (["**".data ++ fmtSafeName feedName ++ "**".data, fmtTitlePart item]
      ++ fmtDateParts dateStr)

/-- Embeds `text_primary = bool(safe_summary and len(item.summary) > 100)`. -/
def fmtTextPrimary (item : FeedItemE) : Bool :=
  !(fmtSafeSummary item).isEmpty && decide (100 < item.summary.length)

/-- Truthiness of `safe_image` (`None` and the empty string are falsy). -/
def fmtImageActive (item : FeedItemE) : Bool :=
  match fmtSafeImage item with
  | some im => !im.isEmpty
  | none => false

/-- Embedding of `format_item_message` (formatter.py lines 108-155).  The
date string `_format_date` would compute from the wall clock is passed in
as `dateStr` (absent models both `None` input and an unparseable date). -/
def formatItemMessage (item : FeedItemE) (feedName : List Char)
    (dateStr : Option (List Char)) : List Char :=
  if fmtImageActive item && !fmtTextPrimary item then
    fmtHeader item feedName dateStr
      ++ '\n' :: (match fmtSafeImage item with | some im => im | none => [])
  else if !(fmtSafeSummary item).isEmpty then
    fmtHeader item feedName dateStr
      ++ '\n' :: joinQuoted (splitLines (fmtSafeSummary item))
  else fmtHeader item feedName dateStr

/-! ## Supporting lemmas -/

lemma sortDescInsert_head (x : Int) (l : List Int) :
    (sortDescInsert x l).head? = some x ∨ (sortDescInsert x l).head? = l.head? := by
  cases l with
  | nil => left; rfl
  | cons y ys =>
    by_cases h : y ≤ x
    · left; simp [sortDescInsert, h]
    · right; simp [sortDescInsert, h]

lemma sortDescInsert_chain (x : Int) :
    ∀ l : List Int, l.Chain' (fun a b => b ≤ a) →
      (sortDescInsert x l).Chain' (fun a b => b ≤ a) := by
  intro l
  induction l with
  | nil => intro _; simp [sortDescInsert]
  | cons y ys ih =>
    intro h
    rw [List.chain'_cons'] at h
    by_cases hyx : y ≤ x
    · rw [sortDescInsert, if_pos hyx, List.chain'_cons']
      refine ⟨?_, List.chain'_cons'.mpr h⟩
      intro b hb
      simp at hb
      omega
    · rw [sortDescInsert, if_neg hyx, List.chain'_cons']
      refine ⟨?_, ih h.2⟩
      intro b hb
      rcases sortDescInsert_head x ys with hh | hh
      · rw [hh] at hb
        simp at hb
        omega
      · rw [hh] at hb
        exact h.1 b hb

lemma sortDesc_chain (l : List Int) :
    (sortDesc l).Chain' (fun a b => b ≤ a) := by
  induction l with
  | nil => simp [sortDesc]
  | cons x xs ih => exact sortDescInsert_chain x _ ih

lemma gapsOf_nonneg :
    ∀ l : List Int, l.Chain' (fun a b => b ≤ a) → ∀ g ∈ gapsOf l, 0 ≤ g
  | [], _, g, hg => by simp [gapsOf] at hg
  | [_], _, g, hg => by simp [gapsOf] at hg
  | a :: b :: rest, h, g, hg => by
    rw [List.chain'_cons] at h
    rw [gapsOf, List.mem_cons] at hg
    rcases hg with rfl | hg
    · omega
    · exact gapsOf_nonneg (b :: rest) h.2 g hg

lemma meanGap_nonneg (l : List Int) (h : l.Chain' (fun a b => b ≤ a)) :
    0 ≤ meanGap l := by
  rw [meanGap]
  apply div_nonneg
  · have hs : (0 : Int) ≤ (gapsOf l).sum :=
      List.sum_nonneg (gapsOf_nonneg l h)
    exact_mod_cast hs
  · exact Nat.cast_nonneg _

lemma pyInt_eq_floor (q : ℚ) (h : 0 ≤ q) : pyInt q = ⌊q⌋ := if_pos h

/-! ## Theorems -/

/-- C5: `calculate_adaptive_interval` returns `none` whenever fewer than two
timestamps are available; otherwise it returns the floor of half the mean
gap between consecutive timestamps (sorted newest first) clamped into
`[min_interval, max_interval]`; and two timestamps exactly 24 hours apart
yield exactly `max_poll_interval` = 43200. -/
theorem adaptiveInterval_correct :
    (∀ (ts : List Int) (mi ma : Int), ts.length < 2 →
        calculateAdaptiveInterval ts mi ma = none)
    ∧ (∀ (ts : List Int) (mi ma : Int), 2 ≤ ts.length →
        calculateAdaptiveInterval ts mi ma
          = some (max mi (min ⌊meanGap (sortDesc ts) / 2⌋ ma)))
    ∧ calculateAdaptiveInterval [86400, 0] 300 43200 = some 43200 := by
  refine ⟨?_, ?_, ?_⟩
  · intro ts mi ma h
    rw [calculateAdaptiveInterval, if_pos h]
  · intro ts mi ma h
    rw [calculateAdaptiveInterval, if_neg (by omega)]
    have hnn : 0 ≤ meanGap (sortDesc ts) / 2 :=
      div_nonneg (meanGap_nonneg _ (sortDesc_chain ts)) (by norm_num)
    simp only [pyInt_eq_floor _ hnn]
  · norm_num [calculateAdaptiveInterval, sortDesc, sortDescInsert, gapsOf,
      meanGap, pyInt, Rat.floor_def]

/-- C5 witness: the theorem applied at concrete inputs — a single timestamp
yields `none`, and a two-element list follows the clamped-floor formula. -/
theorem adaptiveInterval_correct_witness :
    calculateAdaptiveInterval [5] 300 43200 = none
    ∧ calculateAdaptiveInterval [600, 0] 300 43200
        = some (max 300 (min ⌊meanGap (sortDesc [600, 0]) / 2⌋ 43200)) :=
  ⟨adaptiveInterval_correct.1 [5] 300 43200 (by norm_num),
   adaptiveInterval_correct.2.1 [600, 0] 300 43200 (by norm_num)⟩

/-- C6: on a rate-limited fetch (HTTP 403/429) the worker leaves
`consecutive_errors` untouched and schedules the next poll at
`now + max(retry_after or 0, 14400)` or later (the jitter `j` is
nonnegative), hence at least 14400 seconds in the future. -/
theorem rateLimited_backoff_correct :
    ∀ (st : FeedState) (now : Int) (ra : Option Int) (j : Int), 0 ≤ j →
      (pollFeedRateLimited st now ra j).consecutiveErrors = st.consecutiveErrors
      ∧ ∃ t, (pollFeedRateLimited st now ra j).nextPollAt = some t
          ∧ now + rateLimitBackoff ra ≤ t
          ∧ now + 14400 ≤ t := by
  intro st now ra j hj
  refine ⟨rfl, now + rateLimitBackoff ra + j, rfl, by omega, ?_⟩
  have h14 : (14400 : Int) ≤ rateLimitBackoff ra := le_max_right _ _
  omega

/-- C6 witness: concrete rate-limited poll with `Retry-After: 120`. -/
theorem rateLimited_backoff_correct_witness :
    (pollFeedRateLimited ⟨900, 3, none, none, none⟩ 1000 (some 120) 0).consecutiveErrors
        = (⟨900, 3, none, none, none⟩ : FeedState).consecutiveErrors
    ∧ ∃ t, (pollFeedRateLimited ⟨900, 3, none, none, none⟩ 1000 (some 120) 0).nextPollAt = some t
        ∧ 1000 + rateLimitBackoff (some 120) ≤ t
        ∧ 1000 + 14400 ≤ t :=
  rateLimited_backoff_correct ⟨900, 3, none, none, none⟩ 1000 (some 120) 0 (le_refl 0)

/-- Helper: whatever `calculate_adaptive_interval` returns under the default
bounds lies inside them. -/
lemma adaptive_result_bounds (ts : List Int) (v : Int)
    (h : calculateAdaptiveInterval ts 300 43200 = some v) :
    300 ≤ v ∧ v ≤ 43200 := by
  rw [calculateAdaptiveInterval] at h
  by_cases hl : ts.length < 2
  · rw [if_pos hl] at h; cases h
  · rw [if_neg hl] at h
    simp only [Option.some.injEq] at h
    subst h
    constructor
    · exact le_max_left _ _
    · exact max_le (by norm_num) (min_le_right _ _)

/-- C3 counterexample: the claim fails on the error/backoff path.  With the
default stored interval 900 and five prior consecutive errors, the worker
persists `poll_interval = min(900 * 2^6, 86400) = 57600`, outside
`[300, 43200]`. -/
theorem pollInterval_clamp_violated :
    (pollFeedError ⟨900, 5, none, none, none⟩ 0 (some 900) 900 "boom" 0 0).pollInterval
        = 57600
    ∧ ¬ ((pollFeedError ⟨900, 5, none, none, none⟩ 0 (some 900) 900 "boom" 0 0).pollInterval
        ≤ 43200) := by
  norm_num [pollFeedError, scheduleNextPoll]

/-- C3 amended: after a fresh-content or not-modified poll cycle the
persisted `poll_interval` lies within `[min_poll_interval,
max_poll_interval]` = [300, 43200], provided the previously stored interval
(or the default it falls back to) does; the rate-limited and error/backoff
paths persist `max(retry_after, 14400)` and the jittered exponential
backoff respectively, which may exceed `max_poll_interval`. -/
theorem pollInterval_clamped_success_paths :
    ∀ (st : FeedState) (now : Int) (stored : Option Int) (dflt : Int)
      (ts : List Int) (j : Int),
      300 ≤ stored.getD dflt → stored.getD dflt ≤ 43200 →
      (300 ≤ (pollFeedNotModified st now stored dflt j).pollInterval
        ∧ (pollFeedNotModified st now stored dflt j).pollInterval ≤ 43200)
      ∧ (300 ≤ (pollFeedFresh st now stored dflt
            (calculateAdaptiveInterval ts 300 43200) j).pollInterval
        ∧ (pollFeedFresh st now stored dflt
            (calculateAdaptiveInterval ts 300 43200) j).pollInterval ≤ 43200) := by
  intro st now stored dflt ts j h1 h2
  refine ⟨⟨?_, ?_⟩, ?_⟩
  · simpa [pollFeedNotModified, scheduleNextPoll] using h1
  · simpa [pollFeedNotModified, scheduleNextPoll] using h2
  · have hfresh : (pollFeedFresh st now stored dflt
        (calculateAdaptiveInterval ts 300 43200) j).pollInterval
        = pyOrInt (calculateAdaptiveInterval ts 300 43200) (stored.getD dflt) := rfl
    rw [hfresh]
    cases hadapt : calculateAdaptiveInterval ts 300 43200 with
    | none => simpa [pyOrInt] using And.intro h1 h2
    | some v =>
      obtain ⟨hv1, hv2⟩ := adaptive_result_bounds ts v hadapt
      by_cases hz : v = 0
      · simp only [pyOrInt, if_pos hz]
        exact ⟨h1, h2⟩
      · simp only [pyOrInt, if_neg hz]
        exact ⟨hv1, hv2⟩

/-- C3 amended witness: concrete fresh and not-modified cycles with the
default stored interval. -/
theorem pollInterval_clamped_success_paths_witness :
    ((300 : Int) ≤ (some (900 : Int)).getD 900 ∧ (some (900 : Int)).getD 900 ≤ 43200)
    ∧ ((300 ≤ (pollFeedNotModified ⟨900, 0, none, none, none⟩ 0 (some 900) 900 0).pollInterval
        ∧ (pollFeedNotModified ⟨900, 0, none, none, none⟩ 0 (some 900) 900 0).pollInterval ≤ 43200)
      ∧ (300 ≤ (pollFeedFresh ⟨900, 0, none, none, none⟩ 0 (some 900) 900
            (calculateAdaptiveInterval [86400, 0] 300 43200) 0).pollInterval
        ∧ (pollFeedFresh ⟨900, 0, none, none, none⟩ 0 (some 900) 900
            (calculateAdaptiveInterval [86400, 0] 300 43200) 0).pollInterval ≤ 43200)) :=
  ⟨⟨by norm_num, by norm_num⟩,
   pollInterval_clamped_success_paths ⟨900, 0, none, none, none⟩ 0 (some 900) 900
     [86400, 0] 0 (by norm_num) (by norm_num)⟩

/-- C2: the source's `fetch_feed` has no body-size check — a 200 response
whose body is 10 MiB + 1 bytes is returned for parsing as `Fresh(body)`
rather than failing with `PayloadTooLarge` (the repo's own
`TestResponseSizeLimit` expects the missing `MAX_FEED_BYTES` cap). -/
theorem fetch_oversized_body_not_rejected :
    oversizedBody.length = 10 * 1048576 + 1
    ∧ fetchClassify 200 none oversizedBody = FetchOutcome.fresh oversizedBody :=
  ⟨List.length_replicate _ _, rfl⟩

/-- C4: on six new items in document order, the cap keeps the last five
(`new_items[-5:]`, the five *oldest* under the latest-first document-order
convention) and hands the sink their reversal — not the reversal of the
first five that the claim (and the `items[:count]` convention used by the
subscribe path in bot.py) describes. -/
theorem cap_keeps_oldest_not_most_recent :
    capNewItems ["i1", "i2", "i3", "i4", "i5", "i6"] 5 = ["i6", "i5", "i4", "i3", "i2"]
    ∧ (["i1", "i2", "i3", "i4", "i5", "i6"].take 5).reverse = ["i5", "i4", "i3", "i2", "i1"]
    ∧ capNewItems ["i1", "i2", "i3", "i4", "i5", "i6"] 5
        ≠ (["i1", "i2", "i3", "i4", "i5", "i6"].take 5).reverse := by
  refine ⟨by decide, by decide, by decide⟩

/-- C7 counterexample: the boilerplate trim is not idempotent.  On this
batch the first pass strips only the common suffix; that changes which
string is shortest, so the second pass finds and strips a 22-character
majority prefix that the first pass missed. -/
theorem stripBoilerplate_not_idempotent :
    stripBoilerplate (stripBoilerplate [bpS1, bpS2, bpS3])
      ≠ stripBoilerplate [bpS1, bpS2, bpS3] := by decide


/-- C8: `parse_feed` does not synthesize a title — a title-less entry (the
Mastodon-style item from the repo's own `TestTitleSynthesis` test) gets the
empty string, where the spec (and the test) require the cleaned summary
(72 characters, hence unshortened) as the synthesized title. -/
theorem title_not_synthesised :
    (buildFeedItem
        ⟨none, some "https://mastodon.social/@user/123".data,
          some "https://mastodon.social/@user/123".data, some mastodonSummary,
          none, none, none⟩ mastodonSummary none).title = []
    ∧ specSynthesizedTitle none mastodonSummary = mastodonSummary
    ∧ mastodonSummary ≠ [] := by
  refine ⟨rfl, by decide, by decide⟩

/-- C1 counterexample: with two document items sharing one guid, the
unposted filter (which runs before any posting) passes both, and the sink
path receives the same `(subscription, guid)` pair twice in a single
cycle. -/
theorem atMostOnce_violated :
    (runTrace [] [⟨1, ["g", "g"]⟩]).count (1, "g") = 2 := by decide

lemma count_le_one_of_nodup {α : Type} [BEq α] [LawfulBEq α] {l : List α}
    (h : l.Nodup) (a : α) : l.count a ≤ 1 := by
  induction l with
  | nil => simp
  | cons b bs ih =>
    rcases List.nodup_cons.mp h with ⟨hb, hbs⟩
    rw [List.count_cons]
    by_cases hab : a = b
    · subst hab
      have hz : bs.count a = 0 := List.count_eq_zero.mpr hb
      simp only [hz, beq_self_eq_true, if_true]
      omega
    · have hf : (b == a) = false := beq_false_of_ne (Ne.symm hab)
      rw [hf]
      simpa using ih hbs

lemma mem_capNewItems {l : List String} {n : Nat} {x : String}
    (hx : x ∈ capNewItems l n) : x ∈ l := by
  rw [capNewItems, List.mem_reverse] at hx
  by_cases h : n < l.length
  · rw [if_pos h] at hx
    exact List.mem_of_mem_drop hx
  · rwa [if_neg h] at hx

lemma nodup_capNewItems {l : List String} {n : Nat} (h : l.Nodup) :
    (capNewItems l n).Nodup := by
  rw [capNewItems, List.nodup_reverse]
  by_cases hn : n < l.length
  · rw [if_pos hn]
    exact h.sublist (List.drop_sublist _ _)
  · rwa [if_neg hn]

lemma mem_filterNew {j : List (Nat × String)} {f : Nat} {doc : List String}
    {g : String} : g ∈ filterNew j f doc ↔ g ∈ doc ∧ (f, g) ∉ j := by
  simp [filterNew, isItemPosted, List.mem_filter]

lemma nodup_filterNew {j : List (Nat × String)} {f : Nat} {doc : List String}
    (h : doc.Nodup) : (filterNew j f doc).Nodup :=
  h.filter _

lemma mem_recordPostedItem_of_mem {j : List (Nat × String)} {f : Nat}
    {g : String} {fg : Nat × String} (h : fg ∈ j) :
    fg ∈ recordPostedItem j f g := by
  rw [recordPostedItem]
  by_cases hm : (f, g) ∈ j
  · rwa [if_pos hm]
  · rw [if_neg hm]
    exact List.mem_cons_of_mem _ h

lemma self_mem_recordPostedItem (j : List (Nat × String)) (f : Nat)
    (g : String) : (f, g) ∈ recordPostedItem j f g := by
  rw [recordPostedItem]
  by_cases hm : (f, g) ∈ j
  · rwa [if_pos hm]
  · rw [if_neg hm]
    exact List.mem_cons_self _ _

lemma postItems_mono :
    ∀ (items : List String) (j : List (Nat × String)) (f : Nat)
      (fg : Nat × String), fg ∈ j → fg ∈ postItems j f items := by
  intro items
  induction items with
  | nil => intro j f fg h; exact h
  | cons i is ih =>
    intro j f fg h
    exact ih _ f fg (mem_recordPostedItem_of_mem h)

lemma mem_postItems_of_mem :
    ∀ (items : List String) (j : List (Nat × String)) (f : Nat) (g : String),
      g ∈ items → (f, g) ∈ postItems j f items := by
  intro items
  induction items with
  | nil => intro _ _ _ h; cases h
  | cons i is ih =>
    intro j f g h
    rcases List.mem_cons.mp h with rfl | h
    · exact postItems_mono is _ f _ (self_mem_recordPostedItem j f g)
    · exact ih _ f g h

lemma runTrace_count_posted :
    ∀ (trace : List PollCycle) (j : List (Nat × String)) (fg : Nat × String),
      fg ∈ j → (runTrace j trace).count fg = 0 := by
  intro trace
  induction trace with
  | nil => intro j fg _; rfl
  | cons c cs ih =>
    intro j fg hfg
    rw [runTrace, List.count_append]
    have h1 : (runCycle j c).2.count fg = 0 := by
      rw [List.count_eq_zero]
      intro hmem
      rw [runCycle] at hmem
      simp only [List.mem_map] at hmem
      obtain ⟨g, hg, rfl⟩ := hmem
      have := (mem_filterNew.mp (mem_capNewItems hg)).2
      exact this hfg
    have h2 : (runTrace (runCycle j c).1 cs).count fg = 0 :=
      ih _ fg (postItems_mono _ _ _ _ hfg)
    omega

/-- C1 amended: provided each poll's document carries pairwise-distinct
item guids, every `(subscription, guid)` pair is handed to the publisher
sink at most once across the process lifetime — the journal's unique key,
the unposted filter, and the journal write that `_post_item` performs
whether the sink succeeds, fails, or is skipped, together give at-most-once
delivery; without that proviso a document repeating a guid defeats the
filter within a single cycle. -/
theorem atMostOnce_delivery :
    ∀ (trace : List PollCycle) (journal : List (Nat × String)),
      (∀ c ∈ trace, c.docGuids.Nodup) →
      ∀ fg : Nat × String, (runTrace journal trace).count fg ≤ 1 := by
  intro trace
  induction trace with
  | nil => intro journal _ fg; simp [runTrace]
  | cons c cs ih =>
    intro journal hnd fg
    rw [runTrace, List.count_append]
    have hitems : (cycleNewItems journal c).Nodup :=
      nodup_capNewItems (nodup_filterNew (hnd c (List.mem_cons_self _ _)))
    have hmapnd : ((cycleNewItems journal c).map (fun g => (c.feedId, g))).Nodup :=
      hitems.map (fun a b h => (Prod.mk.injEq _ _ _ _).mp h |>.2)
    by_cases hmem : fg ∈ (runCycle journal c).2
    · have h1 : (runCycle journal c).2.count fg ≤ 1 :=
        count_le_one_of_nodup hmapnd fg
      have h2 : (runTrace (runCycle journal c).1 cs).count fg = 0 := by
        rw [runCycle] at hmem
        simp only [List.mem_map] at hmem
        obtain ⟨g, hg, rfl⟩ := hmem
        exact runTrace_count_posted cs _ _ (mem_postItems_of_mem _ _ _ _ hg)
      omega
    · have h1 : (runCycle journal c).2.count fg = 0 :=
        List.count_eq_zero.mpr hmem
      have h2 := ih (runCycle journal c).1
        (fun d hd => hnd d (List.mem_cons_of_mem _ hd)) fg
      omega

/-- C1 amended witness: a concrete two-item cycle with distinct guids. -/
theorem atMostOnce_delivery_witness :
    (∀ c ∈ [PollCycle.mk 1 ["a", "b"]], c.docGuids.Nodup)
    ∧ (runTrace [] [PollCycle.mk 1 ["a", "b"]]).count (1, "a") ≤ 1 :=
  ⟨by decide, atMostOnce_delivery [PollCycle.mk 1 ["a", "b"]] [] (by decide) (1, "a")⟩

lemma mcpLoopAux_spec (strings : List (List Char)) (th : Nat) :
    ∀ rc : List Char, mcpLoopAux strings th rc = []
      ∨ th ≤ countStartsWith strings (mcpLoopAux strings th rc) := by
  intro rc
  induction rc with
  | nil => left; rfl
  | cons c rest ih =>
    rw [mcpLoopAux]
    by_cases h : th ≤ countStartsWith strings ((c :: rest).reverse)
    · rw [if_pos h]; right; exact h
    · rw [if_neg h]; exact ih

lemma mcsLoop_spec (strings : List (List Char)) (th : Nat) :
    ∀ cand : List Char, mcsLoop strings th cand = []
      ∨ th ≤ countEndsWith strings (mcsLoop strings th cand) := by
  intro cand
  induction cand with
  | nil => left; rfl
  | cons c rest ih =>
    rw [mcsLoop]
    by_cases h : th ≤ countEndsWith strings (c :: rest)
    · rw [if_pos h]; right; exact h
    · rw [if_neg h]; exact ih

lemma exists_of_countStartsWith_pos {strings : List (List Char)}
    {cand : List Char} (h : 0 < countStartsWith strings cand) :
    ∃ s ∈ strings, cand <+: s := by
  rw [countStartsWith] at h
  obtain ⟨s, hs⟩ := List.exists_mem_of_length_pos h
  rw [List.mem_filter] at hs
  exact ⟨s, hs.1, List.isPrefixOf_iff_prefix.mp hs.2⟩

lemma exists_of_countEndsWith_pos {strings : List (List Char)}
    {cand : List Char} (h : 0 < countEndsWith strings cand) :
    ∃ s ∈ strings, cand <:+ s := by
  rw [countEndsWith] at h
  obtain ⟨s, hs⟩ := List.exists_mem_of_length_pos h
  rw [List.mem_filter] at hs
  exact ⟨s, hs.1, List.isSuffixOf_iff_suffix.mp hs.2⟩

lemma majorityCommonPrefix_exists {strings : List (List Char)}
    (h : 0 < (majorityCommonPrefix strings).length) :
    ∃ s ∈ strings, majorityCommonPrefix strings <+: s := by
  match strings with
  | [] => simp [majorityCommonPrefix] at h
  | s :: rest =>
    rw [majorityCommonPrefix] at h ⊢
    rcases mcpLoopAux_spec (s :: rest) (max 2 (4 * (s :: rest).length / 5))
        (pyMinByLen (s :: rest)).reverse with hc | hc
    · rw [mcpLoop] at h ⊢
      rw [hc] at h ⊢
      simp [lastIdxOf] at h
    · rw [mcpLoop] at h ⊢
      cases hidx : lastIdxOf ' '
          (mcpLoopAux (s :: rest) (max 2 (4 * (s :: rest).length / 5))
            (pyMinByLen (s :: rest)).reverse) with
      | none => rw [hidx] at h; simp at h
      | some i =>
        have hpos : 0 < countStartsWith (s :: rest)
            (mcpLoopAux (s :: rest) (max 2 (4 * (s :: rest).length / 5))
              (pyMinByLen (s :: rest)).reverse) := by
          have h2 : (2 : Nat) ≤ max 2 (4 * (s :: rest).length / 5) := le_max_left _ _
          omega
        obtain ⟨t, ht, hpre⟩ := exists_of_countStartsWith_pos hpos
        exact ⟨t, ht, (List.take_prefix _ _).trans hpre⟩

lemma majorityCommonSuffix_exists {strings : List (List Char)}
    (h : 0 < (majorityCommonSuffix strings).length) :
    ∃ s ∈ strings, majorityCommonSuffix strings <:+ s := by
  match strings with
  | [] => simp [majorityCommonSuffix] at h
  | s :: rest =>
    rw [majorityCommonSuffix] at h ⊢
    rcases mcsLoop_spec (s :: rest) (max 2 (4 * (s :: rest).length / 5))
        (pyMinByLen (s :: rest)) with hc | hc
    · rw [hc] at h ⊢
      simp at h
    · cases hidx : (mcsLoop (s :: rest) (max 2 (4 * (s :: rest).length / 5))
          (pyMinByLen (s :: rest))).findIdx? (fun d => d == ' ') with
      | none => rw [hidx] at h; simp at h
      | some i =>
        have hpos : 0 < countEndsWith (s :: rest)
            (mcsLoop (s :: rest) (max 2 (4 * (s :: rest).length / 5))
              (pyMinByLen (s :: rest))) := by
          have h2 : (2 : Nat) ≤ max 2 (4 * (s :: rest).length / 5) := le_max_left _ _
          omega
        obtain ⟨t, ht, hsuf⟩ := exists_of_countEndsWith_pos hpos
        exact ⟨t, ht, (List.drop_suffix _ _).trans hsuf⟩

lemma pyLstrip_length_le (l : List Char) : (pyLstrip l).length ≤ l.length :=
  (List.dropWhile_sublist _).length_le

lemma pyRstrip_length_le (l : List Char) : (pyRstrip l).length ≤ l.length := by
  rw [pyRstrip, List.length_reverse]
  calc (l.reverse.dropWhile pyIsSpace).length ≤ l.reverse.length :=
        (List.dropWhile_sublist _).length_le
    _ = l.length := List.length_reverse l

lemma totalLen_map_le (l : List (List Char)) (f : List Char → List Char)
    (hf : ∀ s ∈ l, (f s).length ≤ s.length) :
    totalLen (l.map f) ≤ totalLen l := by
  induction l with
  | nil => simp [totalLen]
  | cons a t ih =>
    have h1 := hf a (List.mem_cons_self _ _)
    have h2 := ih (fun s hs => hf s (List.mem_cons_of_mem _ hs))
    simp only [totalLen, List.map_cons, List.sum_cons] at h2 ⊢
    omega

lemma totalLen_map_lt (l : List (List Char)) (f : List Char → List Char)
    (hf : ∀ s ∈ l, (f s).length ≤ s.length) {s0 : List Char} (hs0 : s0 ∈ l)
    (hlt : (f s0).length < s0.length) :
    totalLen (l.map f) < totalLen l := by
  induction l with
  | nil => cases hs0
  | cons a t ih =>
    have h1 := hf a (List.mem_cons_self _ _)
    have hrest := totalLen_map_le t f (fun s hs => hf s (List.mem_cons_of_mem _ hs))
    rcases List.mem_cons.mp hs0 with rfl | hs0
    · simp only [totalLen, List.map_cons, List.sum_cons] at hrest ⊢
      omega
    · have h2 := ih (fun s hs => hf s (List.mem_cons_of_mem _ hs)) hs0
      simp only [totalLen, List.map_cons, List.sum_cons] at h2 ⊢
      omega

lemma stripPrefixStage_eq_or_lt (l : List (List Char)) :
    stripPrefixStage l = l ∨ totalLen (stripPrefixStage l) < totalLen l := by
  rw [stripPrefixStage]
  by_cases h : boilerplateMinLen ≤ (majorityCommonPrefix l).length
  · rw [if_pos h]
    right
    have hpos : 0 < (majorityCommonPrefix l).length := by
      rw [boilerplateMinLen] at h; omega
    obtain ⟨s, hs, hps⟩ := majorityCommonPrefix_exists hpos
    have hle : ∀ t ∈ l,
        ((fun s => if (majorityCommonPrefix l).isPrefixOf s then
            pyLstrip (s.drop (majorityCommonPrefix l).length) else s) t).length
          ≤ t.length := by
      intro t _
      by_cases hp : (majorityCommonPrefix l).isPrefixOf t
      · simp only [hp, if_true]
        calc (pyLstrip (t.drop (majorityCommonPrefix l).length)).length
            ≤ (t.drop (majorityCommonPrefix l).length).length :=
              pyLstrip_length_le _
          _ ≤ t.length := by rw [List.length_drop]; omega
      · simp only [hp, if_false]
        exact le_refl _
    apply totalLen_map_lt l _ hle hs
    have hb : (majorityCommonPrefix l).isPrefixOf s = true :=
      List.isPrefixOf_iff_prefix.mpr hps
    simp only [hb, if_true]
    have hlen := hps.length_le
    calc (pyLstrip (s.drop (majorityCommonPrefix l).length)).length
        ≤ (s.drop (majorityCommonPrefix l).length).length := pyLstrip_length_le _
      _ = s.length - (majorityCommonPrefix l).length := List.length_drop _ _
      _ < s.length := by rw [boilerplateMinLen] at h; omega
  · rw [if_neg h]
    left; rfl

lemma stripSuffixStage_eq_or_lt (l : List (List Char)) :
    stripSuffixStage l = l ∨ totalLen (stripSuffixStage l) < totalLen l := by
  rw [stripSuffixStage]
  by_cases h : boilerplateMinLen ≤ (majorityCommonSuffix l).length
  · rw [if_pos h]
    right
    have hpos : 0 < (majorityCommonSuffix l).length := by
      rw [boilerplateMinLen] at h; omega
    obtain ⟨s, hs, hss⟩ := majorityCommonSuffix_exists hpos
    have hle : ∀ t ∈ l,
        ((fun s => if (majorityCommonSuffix l).isSuffixOf s then
            pyRstrip (s.take (s.length - (majorityCommonSuffix l).length))
          else s) t).length ≤ t.length := by
      intro t _
      by_cases hp : (majorityCommonSuffix l).isSuffixOf t
      · simp only [hp, if_true]
        calc (pyRstrip (t.take (t.length - (majorityCommonSuffix l).length))).length
            ≤ (t.take (t.length - (majorityCommonSuffix l).length)).length :=
              pyRstrip_length_le _
          _ ≤ t.length := by rw [List.length_take]; omega
      · simp only [hp, if_false]
        exact le_refl _
    apply totalLen_map_lt l _ hle hs
    have hb : (majorityCommonSuffix l).isSuffixOf s = true :=
      List.isSuffixOf_iff_suffix.mpr hss
    simp only [hb, if_true]
    have hlen := hss.length_le
    calc (pyRstrip (s.take (s.length - (majorityCommonSuffix l).length))).length
        ≤ (s.take (s.length - (majorityCommonSuffix l).length)).length :=
          pyRstrip_length_le _
      _ ≤ s.length - (majorityCommonSuffix l).length := by
          rw [List.length_take]; omega
      _ < s.length := by rw [boilerplateMinLen] at h; omega
  · rw [if_neg h]
    left; rfl

/-- C7 amended: the boilerplate trim is not idempotent in general (see the
counterexample) — but each application either returns its input unchanged
or strictly decreases the batch's total character count, so iterating the
pass reaches a fixed point after finitely many applications. -/
theorem stripBoilerplate_decreasing (l : List (List Char)) :
    stripBoilerplate l = l ∨ totalLen (stripBoilerplate l) < totalLen l := by
  rw [stripBoilerplate]
  by_cases h : l.length < 2
  · left; rw [if_pos h]
  · rw [if_neg h]
    rcases stripPrefixStage_eq_or_lt l with h1 | h1
    · rw [h1]
      exact stripSuffixStage_eq_or_lt l
    · rcases stripSuffixStage_eq_or_lt (stripPrefixStage l) with h2 | h2
      · right; rw [h2]; exact h1
      · right; omega

lemma mem_urlFirstChunk {url : List Char} {c : Char}
    (h : c ∈ urlFirstChunk url) : pyIsSpace c = false := by
  rw [urlFirstChunk] at h
  by_cases he : (pyStrip url).isEmpty
  · rw [if_pos he] at h; cases h
  · rw [if_neg he] at h
    have := List.mem_takeWhile_imp h
    simpa using this

lemma mem_urlEncoded {url : List Char} {c : Char} (h : c ∈ urlEncoded url) :
    pyIsSpace c = false ∧ c ≠ '>' := by
  rw [urlEncoded, List.mem_flatMap] at h
  obtain ⟨d, hd, hc⟩ := h
  by_cases hgt : d = '>'
  · rw [if_pos hgt] at hc
    have hdata : "%3E".data = ['%', '3', 'E'] := rfl
    rw [hdata] at hc
    have hc' : c = '%' ∨ c = '3' ∨ c = 'E' := by simpa using hc
    rcases hc' with rfl | rfl | rfl <;> exact ⟨by decide, by decide⟩
  · rw [if_neg hgt] at hc
    have hc' : c = d := by simpa using hc
    subst hc'
    exact ⟨mem_urlFirstChunk hd, hgt⟩

/-- C10: `_sanitise_url` returns either the empty string or a string that
starts with `http://` or `https://` case-insensitively and contains no
whitespace character and no `>`, so embedding the result in a
`[text](<url>)` wrapper cannot break out of it; `format_item_message`
routes every item link and image URL through this function
(`safeLink`/`safeImage` in `formatItemMessage`). -/
theorem sanitiseUrl_safe :
    ∀ url : List Char,
      sanitiseUrl url = []
      ∨ (startsWithHttp (sanitiseUrl url) = true
        ∧ (∀ c ∈ sanitiseUrl url, pyIsSpace c = false)
        ∧ '>' ∉ sanitiseUrl url) := by
  intro url
  rw [sanitiseUrl]
  by_cases h0 : url.isEmpty
  · rw [if_pos h0]; left; rfl
  · rw [if_neg h0]
    by_cases hh : startsWithHttp (urlEncoded url)
    · rw [if_pos hh]
      right
      refine ⟨by simp [hh], ?_, ?_⟩
      · intro c hc; exact (mem_urlEncoded hc).1
      · intro hc; exact (mem_urlEncoded hc).2 rfl
    · rw [if_neg hh]; left; rfl

lemma token_ne_nil {t : List Char} (ht : IsMentionToken t) : t ≠ [] := by
  cases ht with
  | everyone => decide
  | here => decide
  | user m ds hm hne hds => simp

lemma token_length3 {t : List Char} (ht : IsMentionToken t) : 3 ≤ t.length := by
  cases ht with
  | everyone => decide
  | here => decide
  | user m ds hm hne hds =>
    have : 1 ≤ ds.length := List.length_pos.mpr hne
    simp [List.length_append]
    omega

lemma token_head {t : List Char} (ht : IsMentionToken t) :
    t.head? = some '@' ∨ t.head? = some '<' := by
  cases ht with
  | everyone => left; rfl
  | here => left; rfl
  | user m ds hm hne hds => right; rfl

lemma token_chars {t : List Char} (ht : IsMentionToken t) :
    ∀ c ∈ t, tokenChar c = true := by
  cases ht with
  | everyone => decide
  | here => decide
  | user m ds hm hne hds =>
    intro c hc
    rcases List.mem_cons.mp hc with rfl | hc
    · decide
    rcases List.mem_cons.mp hc with rfl | hc
    · decide
    rw [List.append_assoc, List.mem_append] at hc
    rcases hc with hc | hc
    · rcases hm with rfl | rfl | rfl
      · cases hc
      · have : c = '!' := by simpa using hc
        subst this; decide
      · have : c = '&' := by simpa using hc
        subst this; decide
    · rw [List.mem_append] at hc
      rcases hc with hc | hc
      · have := hds c hc
        simp [tokenChar, this]
      · have : c = '>' := by simpa using hc
        subst this; decide

lemma token_at {t : List Char} (ht : IsMentionToken t) : '@' ∈ t := by
  cases ht with
  | everyone => decide
  | here => decide
  | user m ds hm hne hds => exact List.mem_cons_of_mem _ (List.mem_cons_self _ _)

lemma infix_append_split {α : Type} {t a b : List α} (h : t <:+: a ++ b) :
    t <:+: a ∨ t <:+: b ∨
      ∃ t1 t2, t = t1 ++ t2 ∧ t1 ≠ [] ∧ t2 ≠ [] ∧ t1 <:+ a ∧ t2 <+: b := by
  obtain ⟨u, v, huv⟩ := h
  rw [List.append_assoc] at huv
  rcases List.append_eq_append_iff.mp huv with ⟨w, hw1, hw2⟩ | ⟨w, hw1, hw2⟩
  · rcases List.append_eq_append_iff.mp hw2 with ⟨x, hx1, hx2⟩ | ⟨x, hx1, hx2⟩
    · left
      exact ⟨u, x, by rw [hw1, hx1, List.append_assoc]⟩
    · by_cases hw : w = []
      · subst hw
        right; left
        simp only [List.nil_append] at hx1
        exact ⟨[], v, by rw [List.nil_append, hx1, hx2]⟩
      · by_cases hx : x = []
        · subst hx
          left
          rw [List.append_nil] at hx1
          exact ⟨u, [], by rw [List.append_nil, hw1, hx1]⟩
        · right; right
          exact ⟨w, x, hx1, hw, hx, ⟨u, hw1.symm⟩, ⟨v, hx2.symm⟩⟩
  · right; left
    exact ⟨w, v, by rw [hw2, List.append_assoc]⟩

lemma suffix_append_split {α : Type} {t a b : List α} (h : t <:+ a ++ b) :
    t <:+ b ∨ ∃ t', t = t' ++ b ∧ t' <:+ a := by
  obtain ⟨s, hs⟩ := h
  rcases List.append_eq_append_iff.mp hs with ⟨w, hw1, hw2⟩ | ⟨w, hw1, hw2⟩
  · right; exact ⟨w, hw2, ⟨s, hw1.symm⟩⟩
  · left; exact ⟨w, hw2.symm⟩

lemma prefix_cons_split {α : Type} {c : α} {t l : List α} (h : t <+: c :: l) :
    t = [] ∨ ∃ t', t = c :: t' ∧ t' <+: l := by
  cases t with
  | nil => left; rfl
  | cons x xs =>
    rcases List.cons_prefix_cons.mp h with ⟨rfl, h2⟩
    right; exact ⟨xs, rfl, h2⟩

lemma noMention_nil : noMention [] := by
  intro t ht hinf
  have h1 := List.length_pos.mpr (token_ne_nil ht)
  have h2 : t.length ≤ 0 := by simpa using hinf.length_le
  omega

lemma noMention_of_all_clean {l : List Char}
    (h : ∀ c ∈ l, tokenChar c = false) : noMention l := by
  intro t ht hinf
  obtain ⟨c, hc⟩ := List.exists_mem_of_length_pos
    (Nat.lt_of_lt_of_le (by norm_num) (token_length3 ht))
  have h1 := token_chars ht c hc
  have h2 := h c (hinf.subset hc)
  rw [h1] at h2
  cases h2

lemma noMention_of_no_at {l : List Char} (h : '@' ∉ l) : noMention l := by
  intro t ht hinf
  exact h (hinf.subset (token_at ht))

lemma noMention_infix {l l' : List Char} (h : noMention l) (hinf : l' <:+: l) :
    noMention l' :=
  fun t ht htl' => h t ht (htl'.trans hinf)

lemma head_mem_of_append_token {t t1 t2 : List Char}
    (ht : IsMentionToken t) (heq : t = t1 ++ t2) (hne : t1 ≠ []) :
    ∃ c, t1.head? = some c ∧ tokenChar c = true := by
  cases t1 with
  | nil => exact absurd rfl hne
  | cons c t1' =>
    refine ⟨c, rfl, token_chars ht c ?_⟩
    rw [heq]
    exact List.mem_append_left _ (List.mem_cons_self _ _)

lemma noMention_append_left_clean {a b : List Char}
    (ha : ∀ c ∈ a, tokenChar c = false) (hb : noMention b) :
    noMention (a ++ b) := by
  intro t ht hinf
  rcases infix_append_split hinf with h | h | ⟨t1, t2, heq, h1, h2, hsuf, hpre⟩
  · exact noMention_of_all_clean ha t ht h
  · exact hb t ht h
  · obtain ⟨c, hc1, hc2⟩ := head_mem_of_append_token ht heq h1
    have hcmem : c ∈ t1 := List.mem_of_mem_head? hc1
    have := ha c (hsuf.subset hcmem)
    rw [hc2] at this
    cases this

lemma noMention_append_right_clean {a b : List Char}
    (ha : noMention a) (hb : ∀ c ∈ b, tokenChar c = false) :
    noMention (a ++ b) := by
  intro t ht hinf
  rcases infix_append_split hinf with h | h | ⟨t1, t2, heq, h1, h2, hsuf, hpre⟩
  · exact ha t ht h
  · exact noMention_of_all_clean hb t ht h
  · cases t2 with
    | nil => exact h2 rfl
    | cons c t2' =>
      have hcmem : c ∈ b := hpre.subset (List.mem_cons_self _ _)
      have hct : c ∈ t := by
        rw [heq]
        exact List.mem_append_right _ (List.mem_cons_self _ _)
      have := hb c hcmem
      rw [token_chars ht c hct] at this
      cases this

lemma noMention_append_headSafe {a b : List Char}
    (ha : noMention a) (hb : noMention b)
    (hh : ∀ c, b.head? = some c → tokenChar c = false) :
    noMention (a ++ b) := by
  intro t ht hinf
  rcases infix_append_split hinf with h | h | ⟨t1, t2, heq, h1, h2, hsuf, hpre⟩
  · exact ha t ht h
  · exact hb t ht h
  · cases t2 with
    | nil => exact h2 rfl
    | cons c t2' =>
      obtain ⟨r, hr⟩ := hpre
      have hbh : b.head? = some c := by rw [← hr]; rfl
      have hct : c ∈ t := by
        rw [heq]
        exact List.mem_append_right _ (List.mem_cons_self _ _)
      have := hh c hbh
      rw [token_chars ht c hct] at this
      cases this

lemma userMentionMarker_spec (rest : List Char) :
    ((userMentionMarker rest).1 = [] ∨ (userMentionMarker rest).1 = ['!']
      ∨ (userMentionMarker rest).1 = ['&'])
    ∧ rest = (userMentionMarker rest).1 ++ (userMentionMarker rest).2 := by
  cases rest with
  | nil => exact ⟨Or.inl rfl, rfl⟩
  | cons c r =>
    rw [userMentionMarker]
    by_cases h1 : c = '!'
    · subst h1
      rw [if_pos rfl]
      exact ⟨Or.inr (Or.inl rfl), rfl⟩
    · rw [if_neg h1]
      by_cases h2 : c = '&'
      · subst h2
        rw [if_pos rfl]
        exact ⟨Or.inr (Or.inr rfl), rfl⟩
      · rw [if_neg h2]
        exact ⟨Or.inl rfl, rfl⟩

lemma matchUserMention_sound {l tok rem : List Char}
    (h : matchUserMention l = some (tok, rem)) :
    IsMentionToken tok ∧ l = tok ++ rem := by
  match l with
  | [] => cases h
  | [c1] => cases h
  | c1 :: c2 :: rest =>
    rw [matchUserMention] at h
    obtain ⟨m, r2, hmr⟩ : ∃ m r2, userMentionMarker rest = (m, r2) := ⟨_, _, rfl⟩
    have hspec := userMentionMarker_spec rest
    rw [hmr] at h hspec
    by_cases h12 : c1 = '<' ∧ c2 = '@'
    · rw [if_pos h12] at h
      obtain ⟨rfl, rfl⟩ := h12
      by_cases hds : (r2.takeWhile Char.isDigit).isEmpty
      · rw [if_pos hds] at h; cases h
      · rw [if_neg hds] at h
        by_cases hgt : (r2.dropWhile Char.isDigit).head? = some '>'
        · rw [if_pos hgt] at h
          rw [Option.some.injEq, Prod.mk.injEq] at h
          obtain ⟨rfl, rfl⟩ := h
          have hdw : r2.dropWhile Char.isDigit
              = '>' :: (r2.dropWhile Char.isDigit).tail := by
            cases hcase : r2.dropWhile Char.isDigit with
            | nil => rw [hcase] at hgt; cases hgt
            | cons a as =>
              rw [hcase] at hgt
              have ha : a = '>' := by simpa using hgt
              subst ha; rfl
          have htd : r2.takeWhile Char.isDigit ++ r2.dropWhile Char.isDigit = r2 :=
            List.takeWhile_append_dropWhile _ _
          constructor
          · refine IsMentionToken.user _ _ hspec.1 ?_ ?_
            · intro he; rw [he] at hds; exact hds rfl
            · intro c hc; exact List.mem_takeWhile_imp hc
          · obtain ⟨TW, hTW⟩ : ∃ x, r2.takeWhile Char.isDigit = x := ⟨_, rfl⟩
            obtain ⟨TL, hTL⟩ : ∃ x, (r2.dropWhile Char.isDigit).tail = x := ⟨_, rfl⟩
            have hr2 : r2 = TW ++ '>' :: TL := by
              rw [← hTW, ← hTL]
              conv_lhs => rw [← htd]
              congr 1
            have hs2 : rest = m ++ r2 := hspec.2
            rw [hTW, hTL, hs2, hr2]
            simp [List.append_assoc]
        · rw [if_neg hgt] at h; cases h
    · rw [if_neg h12] at h; cases h

lemma matchMention_sound {l tok rem : List Char}
    (h : matchMention l = some (tok, rem)) :
    IsMentionToken tok ∧ l = tok ++ rem := by
  rw [matchMention] at h
  by_cases h1 : "@everyone".data.isPrefixOf l
  · rw [if_pos h1] at h
    rw [Option.some.injEq, Prod.mk.injEq] at h
    obtain ⟨rfl, rfl⟩ := h
    obtain ⟨r, hr⟩ := List.isPrefixOf_iff_prefix.mp h1
    refine ⟨IsMentionToken.everyone, ?_⟩
    rw [← hr]
    congr 1
  · rw [if_neg h1] at h
    by_cases h2 : "@here".data.isPrefixOf l
    · rw [if_pos h2] at h
      rw [Option.some.injEq, Prod.mk.injEq] at h
      obtain ⟨rfl, rfl⟩ := h
      obtain ⟨r, hr⟩ := List.isPrefixOf_iff_prefix.mp h2
      refine ⟨IsMentionToken.here, ?_⟩
      rw [← hr]
      congr 1
    · rw [if_neg h2] at h
      exact matchUserMention_sound h

lemma matchMention_of_everyone {l : List Char} (h : "@everyone".data <+: l) :
    matchMention l ≠ none := by
  rw [matchMention, if_pos (List.isPrefixOf_iff_prefix.mpr h)]
  simp

lemma matchMention_of_here {l : List Char} (h : "@here".data <+: l) :
    matchMention l ≠ none := by
  rw [matchMention]
  by_cases h1 : "@everyone".data.isPrefixOf l
  · rw [if_pos h1]; simp
  · rw [if_neg h1, if_pos (List.isPrefixOf_iff_prefix.mpr h)]
    simp

lemma digit_not_marker {c : Char} (h : c.isDigit = true) :
    c ≠ '!' ∧ c ≠ '&' := by
  constructor <;> rintro rfl <;> exact absurd h (by decide)

lemma takeWhile_all_append {p : Char → Bool} :
    ∀ (xs : List Char) (y : Char) (ys : List Char), (∀ c ∈ xs, p c = true) →
      p y = false →
      (xs ++ y :: ys).takeWhile p = xs
        ∧ (xs ++ y :: ys).dropWhile p = y :: ys := by
  intro xs
  induction xs with
  | nil =>
    intro y ys _ hy
    constructor
    · simp [List.takeWhile_cons, hy]
    · simp [List.dropWhile_cons, hy]
  | cons x xs ih =>
    intro y ys hall hy
    have hx := hall x (List.mem_cons_self _ _)
    obtain ⟨ih1, ih2⟩ := ih y ys (fun c hc => hall c (List.mem_cons_of_mem _ hc)) hy
    constructor
    · rw [List.cons_append, List.takeWhile_cons, hx]
      simp [ih1]
    · rw [List.cons_append, List.dropWhile_cons, hx]
      simpa using ih2

lemma matchMention_of_user {l m ds junk : List Char}
    (hm : m = [] ∨ m = ['!'] ∨ m = ['&']) (hne : ds ≠ [])
    (hds : ∀ c ∈ ds, c.isDigit)
    (hl : l = '<' :: '@' :: (m ++ (ds ++ '>' :: junk))) :
    matchMention l ≠ none := by
  rw [matchMention]
  by_cases h1 : "@everyone".data.isPrefixOf l
  · rw [if_pos h1]; simp
  · rw [if_neg h1]
    by_cases h2 : "@here".data.isPrefixOf l
    · rw [if_pos h2]; simp
    · rw [if_neg h2]
      subst hl
      rw [matchUserMention]
      rw [if_pos ⟨rfl, rfl⟩]
      have hmarker : userMentionMarker (m ++ (ds ++ '>' :: junk))
          = (m, ds ++ '>' :: junk) := by
        rcases hm with rfl | rfl | rfl
        · cases ds with
          | nil => exact absurd rfl hne
          | cons d ds' =>
            have hd := hds d (List.mem_cons_self _ _)
            obtain ⟨hd1, hd2⟩ := digit_not_marker hd
            simp only [List.nil_append, List.cons_append, userMentionMarker]
            rw [if_neg hd1, if_neg hd2]
        · simp [userMentionMarker]
        · simp [userMentionMarker]
      rw [hmarker]
      obtain ⟨htw, hdw⟩ := takeWhile_all_append ds '>' junk hds (by decide)
      simp only [htw, hdw]
      rw [if_neg (by simpa using hne)]
      simp

lemma neutraliseToken_no_at : ∀ {w : List Char}, '@' ∉ w → neutraliseToken w = w := by
  intro w
  induction w with
  | nil => intro _; rfl
  | cons c w' ih =>
    intro h
    have hc : c ≠ '@' := fun hc => h (hc ▸ List.mem_cons_self _ _)
    have hw' : '@' ∉ w' := fun hm => h (List.mem_cons_of_mem _ hm)
    simp only [neutraliseToken, List.foldr_cons, if_neg hc]
    have := ih hw'
    rw [neutraliseToken] at this
    rw [this]

lemma digit_not_special {c : Char} (h : c.isDigit = true) :
    c ≠ '@' ∧ c ≠ '<' ∧ c ≠ zwsp := by
  refine ⟨?_, ?_, ?_⟩ <;> rintro rfl <;> exact absurd h (by decide)

lemma user_tail_clean {m ds : List Char}
    (hm : m = [] ∨ m = ['!'] ∨ m = ['&']) (hds : ∀ c ∈ ds, c.isDigit) :
    ∀ c ∈ m ++ ds ++ ['>'], c ≠ '@' ∧ c ≠ '<' ∧ c ≠ zwsp := by
  intro c hc
  rw [List.append_assoc, List.mem_append] at hc
  rcases hc with hc | hc
  · rcases hm with rfl | rfl | rfl
    · cases hc
    · have : c = '!' := by simpa using hc
      subst this; refine ⟨by decide, by decide, by decide⟩
    · have : c = '&' := by simpa using hc
      subst this; refine ⟨by decide, by decide, by decide⟩
  · rw [List.mem_append] at hc
    rcases hc with hc | hc
    · exact digit_not_special (hds c hc)
    · have : c = '>' := by simpa using hc
      subst this; refine ⟨by decide, by decide, by decide⟩

lemma neutral_shape {t : List Char} (ht : IsMentionToken t) :
    ∃ pre w, neutraliseToken t = pre ++ zwsp :: w
      ∧ (pre = ['@'] ∨ pre = ['<', '@'])
      ∧ (∀ c ∈ w, c ≠ '@' ∧ c ≠ '<' ∧ c ≠ zwsp) := by
  cases ht with
  | everyone =>
    refine ⟨['@'], "everyone".data, by decide, Or.inl rfl, by decide⟩
  | here =>
    refine ⟨['@'], "here".data, by decide, Or.inl rfl, by decide⟩
  | user m ds hm hne hds =>
    refine ⟨['<', '@'], m ++ ds ++ ['>'], ?_, Or.inr rfl, user_tail_clean hm hds⟩
    have hclean : '@' ∉ m ++ ds ++ ['>'] := by
      intro hmem
      exact (user_tail_clean hm hds '@' hmem).1 rfl
    simp only [neutraliseToken, List.foldr_cons]
    rw [if_neg (by decide : ¬ ('<' : Char) = '@')]
    simp only [if_true]
    have := neutraliseToken_no_at hclean
    rw [neutraliseToken] at this
    rw [this]
    rfl

lemma noMention_neutral {t : List Char} (ht : IsMentionToken t) :
    noMention (neutraliseToken t) := by
  obtain ⟨pre, w, hshape, hpre, hw⟩ := neutral_shape ht
  rw [hshape]
  intro t' ht' hinf
  rcases infix_append_split hinf with h | h | ⟨t1, t2, heq, h1, h2, hsuf, hpre2⟩
  · have hlen := h.length_le
    have h3 := token_length3 ht'
    have : pre.length ≤ 2 := by rcases hpre with rfl | rfl <;> decide
    omega
  · have hat : '@' ∈ zwsp :: w := h.subset (token_at ht')
    rcases List.mem_cons.mp hat with hz | hz
    · exact absurd hz (by decide)
    · exact (hw '@' hz).1 rfl
  · cases t2 with
    | nil => exact h2 rfl
    | cons c t2' =>
      obtain ⟨r, hr⟩ := hpre2
      have hcz : c = zwsp := by
        simpa using congrArg List.head? hr
      subst hcz
      have hmem : zwsp ∈ t' := by
        rw [heq]; exact List.mem_append_right _ (List.mem_cons_self _ _)
      have := token_chars ht' zwsp hmem
      exact absurd this (by decide)

lemma noMention_neutral_append {t B : List Char} (ht : IsMentionToken t)
    (hB : noMention B) : noMention (neutraliseToken t ++ B) := by
  intro t' ht' hinf
  rcases infix_append_split hinf with h | h | ⟨t1, t2, heq, h1, h2, hsuf, hpre2⟩
  · exact noMention_neutral ht t' ht' h
  · exact hB t' ht' h
  · obtain ⟨pre, w, hshape, hpre, hw⟩ := neutral_shape ht
    rw [hshape] at hsuf
    obtain ⟨c, hc1, hc2⟩ := head_mem_of_append_token ht' heq h1
    have hchead : c = '@' ∨ c = '<' := by
      have hth := token_head ht'
      cases t1 with
      | nil => exact absurd rfl h1
      | cons d t1' =>
        rw [heq] at hth
        simp only [List.cons_append, List.head?_cons] at hth
        have hd : d = c := by simpa using hc1
        subst hd
        rcases hth with hth | hth
        · left; exact Option.some.inj hth
        · right; exact Option.some.inj hth
    rcases suffix_append_split hsuf with hs | ⟨t1', ht1', hs⟩
    · have hcmem : c ∈ zwsp :: w := hs.subset (List.mem_of_mem_head? hc1)
      rcases List.mem_cons.mp hcmem with hz | hz
      · rcases hchead with rfl | rfl <;> exact absurd hz (by decide)
      · rcases hchead with rfl | rfl
        · exact (hw '@' hz).1 rfl
        · exact (hw '<' hz).2.1 rfl
    · have hzmem : zwsp ∈ t1 := by
        rw [ht1']
        exact List.mem_append_right _ (List.mem_cons_self _ _)
      have : zwsp ∈ t' := by
        rw [heq]; exact List.mem_append_left _ hzmem
      have := token_chars ht' zwsp this
      exact absurd this (by decide)

lemma clean_prefix_sanitise :
    ∀ (fuel : Nat) (l w : List Char), l.length ≤ fuel →
      w <+: sanitiseMentionsGo fuel l →
      (∀ ch ∈ w, ch ≠ '@' ∧ ch ≠ '<' ∧ ch ≠ zwsp) → w <+: l := by
  intro fuel
  induction fuel with
  | zero =>
    intro l w _ hw _
    rw [sanitiseMentionsGo] at hw
    have hwn := List.prefix_nil.mp hw
    subst hwn
    exact List.nil_prefix
  | succ f ih =>
    intro l w hlen hw hclean
    match l with
    | [] =>
      rw [sanitiseMentionsGo] at hw
      have hwn := List.prefix_nil.mp hw
      subst hwn
      exact List.nil_prefix
    | c :: rest =>
      cases hm : matchMention (c :: rest) with
      | some pair =>
        obtain ⟨tok, rem⟩ := pair
        simp only [sanitiseMentionsGo, hm] at hw
        cases w with
        | nil => exact List.nil_prefix
        | cons d w' =>
          obtain ⟨htok, _⟩ := matchMention_sound hm
          obtain ⟨pre, w0, hshape, hpre, _⟩ := neutral_shape htok
          rw [hshape] at hw
          obtain ⟨r, hr⟩ := hw
          have hhead := congrArg List.head? hr
          have hd : d = '@' ∨ d = '<' := by
            rcases hpre with rfl | rfl
            · left; simpa using hhead
            · right; simpa using hhead
          have := hclean d (List.mem_cons_self _ _)
          rcases hd with rfl | rfl
          · exact absurd rfl this.1
          · exact absurd rfl this.2.1
      | none =>
        simp only [sanitiseMentionsGo, hm] at hw
        rcases prefix_cons_split hw with rfl | ⟨w', rfl, hw'⟩
        · exact List.nil_prefix
        · have hrest : rest.length ≤ f := by
            simp only [List.length_cons] at hlen
            omega
          have := ih rest w' hrest hw'
            (fun ch hch => hclean ch (List.mem_cons_of_mem _ hch))
          exact List.cons_prefix_cons.mpr ⟨rfl, this⟩

lemma at_prefix_sanitise {fuel : Nat} {l u : List Char}
    (hlen : l.length ≤ fuel) (hw : ('@' :: u) <+: sanitiseMentionsGo fuel l)
    (hne : u ≠ []) (hclean : ∀ ch ∈ u, ch ≠ '@' ∧ ch ≠ '<' ∧ ch ≠ zwsp) :
    ('@' :: u) <+: l := by
  match fuel with
  | 0 =>
    rw [sanitiseMentionsGo] at hw
    cases List.prefix_nil.mp hw
  | Nat.succ f =>
    match l with
    | [] =>
      rw [sanitiseMentionsGo] at hw
      cases List.prefix_nil.mp hw
    | c :: rest =>
      cases hm : matchMention (c :: rest) with
      | some pair =>
        obtain ⟨tok, rem⟩ := pair
        simp only [sanitiseMentionsGo, hm] at hw
        obtain ⟨htok, _⟩ := matchMention_sound hm
        obtain ⟨pre, w0, hshape, hpre, _⟩ := neutral_shape htok
        rw [hshape] at hw
        rcases hpre with rfl | rfl
        · simp only [List.cons_append, List.nil_append] at hw
          obtain ⟨_, hu⟩ := List.cons_prefix_cons.mp hw
          rcases prefix_cons_split hu with rfl | ⟨u', rfl, _⟩
          · exact absurd rfl hne
          · exact absurd rfl (hclean zwsp (List.mem_cons_self _ _)).2.2
        · simp only [List.cons_append, List.nil_append] at hw
          obtain ⟨hc, _⟩ := List.cons_prefix_cons.mp hw
          exact absurd hc (by decide)
      | none =>
        simp only [sanitiseMentionsGo, hm] at hw
        obtain ⟨hc, hu⟩ := List.cons_prefix_cons.mp hw
        subst hc
        have hrest : rest.length ≤ f := by
          simp only [List.length_cons] at hlen
          omega
        have := clean_prefix_sanitise f rest u hrest hu hclean
        exact List.cons_prefix_cons.mpr ⟨rfl, this⟩

lemma noMention_sanitiseGo :
    ∀ (fuel : Nat) (l : List Char), l.length ≤ fuel →
      noMention (sanitiseMentionsGo fuel l) := by
  intro fuel
  induction fuel with
  | zero =>
    intro l _
    rw [sanitiseMentionsGo]
    exact noMention_nil
  | succ f ih =>
    intro l hlen
    match l with
    | [] =>
      rw [sanitiseMentionsGo]
      exact noMention_nil
    | c :: rest =>
      cases hm : matchMention (c :: rest) with
      | some pair =>
        obtain ⟨tok, rem⟩ := pair
        simp only [sanitiseMentionsGo, hm]
        obtain ⟨htok, heq⟩ := matchMention_sound hm
        have hrem : rem.length ≤ f := by
          have h1 := congrArg List.length heq
          have h2 := List.length_pos.mpr (token_ne_nil htok)
          simp only [List.length_cons, List.length_append] at h1
          have hlen2 : rest.length + 1 ≤ f + 1 := by simpa using hlen
          omega
        exact noMention_neutral_append htok (ih rem hrem)
      | none =>
        simp only [sanitiseMentionsGo, hm]
        have hrest : rest.length ≤ f := by
          simp only [List.length_cons] at hlen
          omega
        show noMention ([c] ++ sanitiseMentionsGo f rest)
        intro t ht hinf
        rcases infix_append_split hinf with h | h | ⟨t1, t2, heq, h1, h2, hsuf, hpre⟩
        · have hl1 := h.length_le
          have hl3 := token_length3 ht
          simp only [List.length_singleton] at hl1
          omega
        · exact ih rest hrest t ht h
        · have ht1 : t1 = [c] := by
            obtain ⟨sp, hsp⟩ := hsuf
            cases sp with
            | nil => simpa using hsp
            | cons a sp' =>
              exfalso
              have hlen2 := congrArg List.length hsp
              simp only [List.length_append, List.length_cons,
                List.length_nil] at hlen2
              have h1len := List.length_pos.mpr h1
              omega
          subst ht1
          cases ht with
          | everyone =>
            have h9 : ('@' : Char) :: "everyone".data = [c] ++ t2 := heq
            rw [List.singleton_append] at h9
            obtain ⟨rfl, rfl⟩ := List.cons.injEq .. |>.mp h9.symm
            have hcl : ∀ ch ∈ "everyone".data,
                ch ≠ '@' ∧ ch ≠ '<' ∧ ch ≠ zwsp := by decide
            have := clean_prefix_sanitise f rest _ hrest hpre hcl
            have hfull : "@everyone".data <+: '@' :: rest :=
              List.cons_prefix_cons.mpr ⟨rfl, this⟩
            exact matchMention_of_everyone hfull hm
          | here =>
            have h9 : ('@' : Char) :: "here".data = [c] ++ t2 := heq
            rw [List.singleton_append] at h9
            obtain ⟨rfl, rfl⟩ := List.cons.injEq .. |>.mp h9.symm
            have hcl : ∀ ch ∈ "here".data,
                ch ≠ '@' ∧ ch ≠ '<' ∧ ch ≠ zwsp := by decide
            have := clean_prefix_sanitise f rest _ hrest hpre hcl
            have hfull : "@here".data <+: '@' :: rest :=
              List.cons_prefix_cons.mpr ⟨rfl, this⟩
            exact matchMention_of_here hfull hm
          | user m ds hm' hne hds =>
            have h9 : ('<' : Char) :: ('@' :: (m ++ ds ++ ['>'])) = [c] ++ t2 := heq
            rw [List.singleton_append] at h9
            obtain ⟨rfl, rfl⟩ := List.cons.injEq .. |>.mp h9.symm
            have hune : '@' :: (m ++ ds ++ ['>']) ≠ [] := by simp
            have hcl := user_tail_clean hm' hds
            have hu : (m ++ ds ++ ['>']) ≠ [] := by simp
            have hat := at_prefix_sanitise hrest hpre hu hcl
            obtain ⟨r, hr⟩ := hat
            have hrw : rest = '@' :: (m ++ (ds ++ '>' :: r)) := by
              rw [← hr]
              simp [List.append_assoc]
            exact matchMention_of_user hm' hne hds (by rw [hrw]) hm
  
lemma noMention_sanitiseMentions (l : List Char) :
    noMention (sanitiseMentions l) :=
  noMention_sanitiseGo l.length l (le_refl _)

lemma mem_neutraliseToken : ∀ {w : List Char} {c : Char},
    c ∈ neutraliseToken w → c ∈ w ∨ c = zwsp := by
  intro w
  induction w with
  | nil => intro c h; cases h
  | cons d w' ih =>
    intro c h
    by_cases hd : d = '@'
    · subst hd
      simp only [neutraliseToken, List.foldr_cons, if_pos rfl] at h
      rcases List.mem_cons.mp h with rfl | h
      · exact Or.inl (List.mem_cons_self _ _)
      rcases List.mem_cons.mp h with rfl | h
      · exact Or.inr rfl
      · rcases ih h with h2 | h2
        · exact Or.inl (List.mem_cons_of_mem _ h2)
        · exact Or.inr h2
    · simp only [neutraliseToken, List.foldr_cons, if_neg hd] at h
      rcases List.mem_cons.mp h with rfl | h
      · exact Or.inl (List.mem_cons_self _ _)
      · rcases ih h with h2 | h2
        · exact Or.inl (List.mem_cons_of_mem _ h2)
        · exact Or.inr h2

lemma mem_sanitiseGo : ∀ (fuel : Nat) (l : List Char) (c : Char),
    c ∈ sanitiseMentionsGo fuel l → c ∈ l ∨ c = zwsp := by
  intro fuel
  induction fuel with
  | zero => intro l c h; rw [sanitiseMentionsGo] at h; cases h
  | succ f ih =>
    intro l c h
    match l with
    | [] => rw [sanitiseMentionsGo] at h; cases h
    | d :: rest =>
      cases hm : matchMention (d :: rest) with
      | some pair =>
        obtain ⟨tok, rem⟩ := pair
        simp only [sanitiseMentionsGo, hm] at h
        obtain ⟨_, heq⟩ := matchMention_sound hm
        rcases List.mem_append.mp h with h2 | h2
        · rcases mem_neutraliseToken h2 with h3 | h3
          · left; rw [heq]; exact List.mem_append_left _ h3
          · right; exact h3
        · rcases ih rem c h2 with h3 | h3
          · left; rw [heq]; exact List.mem_append_right _ h3
          · right; exact h3
      | none =>
        simp only [sanitiseMentionsGo, hm] at h
        rcases List.mem_cons.mp h with rfl | h2
        · left; exact List.mem_cons_self _ _
        · rcases ih rest c h2 with h3 | h3
          · left; exact List.mem_cons_of_mem _ h3
          · right; exact h3

lemma mem_sanitiseMentions {l : List Char} {c : Char}
    (h : c ∈ sanitiseMentions l) : c ∈ l ∨ c = zwsp :=
  mem_sanitiseGo l.length l c h

lemma mem_sanitiseMarkdown {l : List Char} {c : Char}
    (h : c ∈ sanitiseMarkdown l) : c ∈ l ∨ c = '\\' := by
  rw [sanitiseMarkdown, List.mem_flatMap] at h
  obtain ⟨d, hd, hc⟩ := h
  rw [mdEscapeChar] at hc
  by_cases hcase : d = '*' || d = '_' || d = '~' || d = Char.ofNat 96 || d = '|'
      || d = '>' || d = '[' || d = ']'
  · rw [if_pos hcase] at hc
    rcases List.mem_cons.mp hc with rfl | hc
    · right; rfl
    · have : c = d := by simpa using hc
      subst this
      left; exact hd
  · rw [if_neg hcase] at hc
    have : c = d := by simpa using hc
    subst this
    left; exact hd

lemma mem_pyStrip {l : List Char} {c : Char} (h : c ∈ pyStrip l) : c ∈ l := by
  rw [pyStrip, pyRstrip] at h
  rw [List.mem_reverse] at h
  have h2 := (List.dropWhile_sublist _).mem h
  rw [List.mem_reverse] at h2
  exact (List.dropWhile_sublist _).mem h2

lemma mem_sanitiseUrl {url : List Char} {c : Char} (h : c ∈ sanitiseUrl url) :
    c ∈ url ∨ c = '%' ∨ c = '3' ∨ c = 'E' := by
  rw [sanitiseUrl] at h
  by_cases h0 : url.isEmpty
  · rw [if_pos h0] at h; cases h
  · rw [if_neg h0] at h
    by_cases hh : startsWithHttp (urlEncoded url)
    · rw [if_pos hh] at h
      rw [urlEncoded, List.mem_flatMap] at h
      obtain ⟨d, hd, hc⟩ := h
      have hdu : d ∈ url := by
        rw [urlFirstChunk] at hd
        by_cases he : (pyStrip url).isEmpty
        · rw [if_pos he] at hd; cases hd
        · rw [if_neg he] at hd
          exact mem_pyStrip ((List.takeWhile_sublist _).mem hd)
      by_cases hgt : d = '>'
      · rw [if_pos hgt] at hc
        have : c = '%' ∨ c = '3' ∨ c = 'E' := by
          have hdata : "%3E".data = ['%', '3', 'E'] := rfl
          rw [hdata] at hc
          simpa using hc
        exact Or.inr this
      · rw [if_neg hgt] at hc
        have : c = d := by simpa using hc
        subst this
        exact Or.inl hdu
    · rw [if_neg hh] at h; cases h

lemma stripNewlines_eq_map {S : List Char} (h : '\r' ∉ S) :
    stripNewlines S = S.map (fun c => if c = '\n' then ' ' else c) := by
  rw [stripNewlines]
  rw [List.filter_eq_self]
  intro c hc
  obtain ⟨d, hd, hfd⟩ := List.mem_map.mp hc
  by_cases hdn : d = '\n'
  · rw [if_pos hdn] at hfd
    subst hfd
    decide
  · rw [if_neg hdn] at hfd
    subst hfd
    have : d ≠ '\r' := fun hr => h (hr ▸ hd)
    simpa using this

lemma noMention_map_newline {S : List Char} (h : noMention S) :
    noMention (S.map (fun c => if c = '\n' then ' ' else c)) := by
  intro t ht hinf
  obtain ⟨u, v, huv⟩ := hinf
  have hsplit1 : S.map (fun c => if c = '\n' then ' ' else c) = (u ++ t) ++ v := by
    rw [← huv, List.append_assoc]
  obtain ⟨l1, l2, hS, hm1, _⟩ := List.map_eq_append_iff.mp hsplit1
  obtain ⟨l11, l12, hl1, _, hm12⟩ := List.map_eq_append_iff.mp hm1
  have ht12 : l12 = t := by
    have hid : ∀ d ∈ l12, (if d = '\n' then ' ' else d) = d := by
      intro d hd
      by_cases hdn : d = '\n'
      · exfalso
        have hsp : (' ' : Char) ∈ t := by
          rw [← hm12]
          refine List.mem_map.mpr ⟨d, hd, ?_⟩
          rw [if_pos hdn]
        have := token_chars ht ' ' hsp
        exact absurd this (by decide)
      · rw [if_neg hdn]
    rw [← hm12]
    have hmap : List.map (fun c => if c = '\n' then ' ' else c) l12 = l12 :=
      (List.map_congr_left hid).trans (List.map_id l12)
    exact hmap.symm
  refine h t ht ⟨l11, l2, ?_⟩
  rw [← ht12, ← hl1, ← hS]

lemma noMention_stripNl_sanitised {X : List Char} (h : '\r' ∉ X) :
    noMention (stripNewlines (sanitiseMentions X)) := by
  have h2 : '\r' ∉ sanitiseMentions X := by
    intro hm
    rcases mem_sanitiseMentions hm with h3 | h3
    · exact h h3
    · exact absurd h3 (by decide)
  rw [stripNewlines_eq_map h2]
  exact noMention_map_newline (noMention_sanitiseMentions X)

lemma splitLinesGo_isInfix :
    ∀ (l cur chunk : List Char), chunk ∈ splitLinesGo cur l →
      chunk <:+: (cur.reverse ++ l)
  | [], cur, chunk, h => by
    rw [splitLinesGo] at h
    have : chunk = cur.reverse := by simpa using h
    subst this
    exact ⟨[], [], by simp⟩
  | [c], cur, chunk, h => by
    rw [splitLinesGo] at h
    by_cases hc : c = '\r' || c = '\n'
    · rw [if_pos hc] at h
      have : chunk = cur.reverse := by simpa using h
      subst this
      exact ⟨[], [c], by simp⟩
    · rw [if_neg hc] at h
      have : chunk = (c :: cur).reverse := by simpa using h
      subst this
      exact ⟨[], [], by simp⟩
  | c :: c2 :: rest, cur, chunk, h => by
    rw [splitLinesGo] at h
    by_cases hc : c = '\r'
    · rw [if_pos hc] at h
      by_cases hc2 : c2 = '\n'
      · rw [if_pos hc2] at h
        by_cases hre : rest.isEmpty
        · rw [if_pos hre] at h
          have : chunk = cur.reverse := by simpa using h
          subst this
          exact ⟨[], c :: c2 :: rest, by simp⟩
        · rw [if_neg hre] at h
          rcases List.mem_cons.mp h with rfl | h2
          · exact ⟨[], c :: c2 :: rest, by simp⟩
          · have hrec := splitLinesGo_isInfix rest [] chunk h2
            rw [List.reverse_nil, List.nil_append] at hrec
            exact hrec.trans ⟨cur.reverse ++ [c, c2], [], by simp⟩
      · rw [if_neg hc2] at h
        rcases List.mem_cons.mp h with rfl | h2
        · exact ⟨[], c :: c2 :: rest, by simp⟩
        · have hrec := splitLinesGo_isInfix (c2 :: rest) [] chunk h2
          rw [List.reverse_nil, List.nil_append] at hrec
          exact hrec.trans ⟨cur.reverse ++ [c], [], by simp⟩
    · rw [if_neg hc] at h
      by_cases hcn : c = '\n'
      · rw [if_pos hcn] at h
        rcases List.mem_cons.mp h with rfl | h2
        · exact ⟨[], c :: c2 :: rest, by simp⟩
        · have hrec := splitLinesGo_isInfix (c2 :: rest) [] chunk h2
          rw [List.reverse_nil, List.nil_append] at hrec
          exact hrec.trans ⟨cur.reverse ++ [c], [], by simp⟩
      · rw [if_neg hcn] at h
        have hrec := splitLinesGo_isInfix (c2 :: rest) (c :: cur) chunk h
        rw [List.reverse_cons] at hrec
        rw [List.append_assoc] at hrec
        simpa using hrec

lemma splitLines_isInfix {l chunk : List Char} (h : chunk ∈ splitLines l) :
    chunk <:+: l := by
  rw [splitLines] at h
  by_cases he : l.isEmpty
  · rw [if_pos he] at h; cases h
  · rw [if_neg he] at h
    have := splitLinesGo_isInfix l [] chunk h
    simpa using this

lemma noMention_short {l : List Char} (h : l.length < 3) : noMention l := by
  intro t ht hinf
  have h1 := hinf.length_le
  have h2 := token_length3 ht
  omega

lemma noMention_append_lastSafe {a b : List Char} (sp : Char)
    (ha : noMention a) (hb : noMention b)
    (hlast : a.getLast? = some sp) (hsp : tokenChar sp = false) :
    noMention (a ++ b) := by
  intro t ht hinf
  rcases infix_append_split hinf with h | h | ⟨t1, t2, heq, h1, h2, hsuf, hpre⟩
  · exact ha t ht h
  · exact hb t ht h
  · obtain ⟨s, hs⟩ := hsuf
    have hl1 : a.getLast? = t1.getLast? := by
      rw [← hs]
      exact List.getLast?_append_of_ne_nil _ h1
    have hspm : sp ∈ t1 := by
      refine List.mem_of_mem_getLast? ?_
      rw [hl1] at hlast
      exact Option.mem_def.mpr hlast
    have hspt : sp ∈ t := by
      rw [heq]; exact List.mem_append_left _ hspm
    have := token_chars ht sp hspt
    rw [hsp] at this
    cases this

lemma noMention_joinQuoted :
    ∀ lines : List (List Char), (∀ x ∈ lines, noMention x) →
      noMention (joinQuoted lines)
  | [], _ => by rw [joinQuoted]; exact noMention_nil
  | [x], h => by
    rw [joinQuoted]
    exact noMention_append_lastSafe ' ' (noMention_short (by decide))
      (h x (List.mem_cons_self _ _)) (by decide) (by decide)
  | x :: y :: rest, h => by
    rw [joinQuoted]
    have hx := h x (List.mem_cons_self _ _)
    have hrest := noMention_joinQuoted (y :: rest)
      (fun z hz => h z (List.mem_cons_of_mem _ hz))
    show noMention (("> ".data ++ x) ++ ('\n' :: joinQuoted (y :: rest)))
    refine noMention_append_headSafe ?_ ?_ ?_
    · exact noMention_append_lastSafe ' ' (noMention_short (by decide)) hx
        (by decide) (by decide)
    · show noMention (['\n'] ++ joinQuoted (y :: rest))
      exact noMention_append_left_clean (by decide) hrest
    · intro c hc
      have hcn : '\n' = c := by simpa using hc
      subst hcn
      decide

lemma noMention_fmtSafeSummary (item : FeedItemE) :
    noMention (fmtSafeSummary item) := by
  rw [fmtSafeSummary]
  by_cases hsum : item.summary.isEmpty
  · rw [if_pos hsum]; exact noMention_nil
  · rw [if_neg hsum]; exact noMention_sanitiseMentions _

/-- C9 amended: the rendered message contains no active mention token,
provided the feed name and item title contain no carriage return (the
source strips newlines after sanitising mentions, so a `\r` inside a
would-be mention could otherwise splice an active one together — see the
counterexample), and the link, image URL and date string contain no `@`
(those fields are outside the claim's title/summary/feed-name scope and are
not mention-sanitised). -/
theorem mention_neutralization (item : FeedItemE) (feedName : List Char)
    (dateStr : Option (List Char))
    (hnr : '\r' ∉ feedName) (htr : '\r' ∉ item.title)
    (hlink : '@' ∉ item.link) (himg : '@' ∉ item.imageUrl.getD [])
    (hdate : '@' ∉ dateStr.getD []) :
    noMention (formatItemMessage item feedName dateStr) := by
  have hN : noMention (fmtSafeName feedName) := by
    rw [fmtSafeName]
    exact noMention_stripNl_sanitised hnr
  have hT : noMention (fmtSafeTitle item) := by
    rw [fmtSafeTitle]
    refine noMention_stripNl_sanitised ?_
    intro hm
    rcases mem_sanitiseMarkdown hm with h | h
    · exact htr h
    · exact absurd h (by decide)
  have hL : '@' ∉ sanitiseUrl item.link := by
    intro hm
    rcases mem_sanitiseUrl hm with h | h | h | h
    · exact hlink h
    · exact absurd h (by decide)
    · exact absurd h (by decide)
    · exact absurd h (by decide)
  have hTP : noMention (fmtTitlePart item) := by
    rw [fmtTitlePart]
    by_cases hl0 : (sanitiseUrl item.link).isEmpty
    · rw [if_pos hl0]; exact hT
    · rw [if_neg hl0]
      have hassoc : "[".data ++ fmtSafeTitle item ++ "](<".data
            ++ sanitiseUrl item.link ++ ">)".data
          = "[".data ++ (fmtSafeTitle item
            ++ ("](<".data ++ (sanitiseUrl item.link ++ ">)".data))) := by
        simp [List.append_assoc]
      rw [hassoc]
      refine noMention_append_left_clean (by decide) ?_
      refine noMention_append_headSafe hT ?_ ?_
      · refine noMention_of_no_at ?_
        intro hm
        rcases List.mem_append.mp hm with h | h
        · exact absurd h (by decide)
        · rcases List.mem_append.mp h with h | h
          · exact hL h
          · exact absurd h (by decide)
      · intro c hc
        have hcc : ']' = c := by simpa using hc
        subst hcc
        decide
  have hA : noMention ("**".data ++ fmtSafeName feedName ++ "**".data) := by
    refine noMention_append_right_clean ?_ (by decide)
    exact noMention_append_left_clean (by decide) hN
  have hdp : fmtDateParts dateStr = []
      ∨ ∃ d, fmtDateParts dateStr = [d] ∧ '@' ∉ d := by
    cases dateStr with
    | none => left; rfl
    | some d =>
      by_cases hde : d.isEmpty
      · left; rw [fmtDateParts, if_pos hde]
      · right
        refine ⟨d, by rw [fmtDateParts, if_neg hde], ?_⟩
        simpa using hdate
  have hHeader : noMention (fmtHeader item feedName dateStr) := by
    rw [fmtHeader]
    rcases hdp with hdp | ⟨d, hdp, hd⟩
    · rw [hdp, List.append_nil]
      have hjs : joinSep " · ".data
            ["**".data ++ fmtSafeName feedName ++ "**".data, fmtTitlePart item]
          = ("**".data ++ fmtSafeName feedName ++ "**".data)
            ++ (" · ".data ++ fmtTitlePart item) := by
        simp [joinSep, List.append_assoc]
      rw [hjs]
      refine noMention_append_headSafe hA ?_ ?_
      · exact noMention_append_left_clean (by decide) hTP
      · intro c hc
        have hcc : ' ' = c := by simpa using hc
        subst hcc
        decide
    · rw [hdp]
      have hjs : joinSep " · ".data
            (["**".data ++ fmtSafeName feedName ++ "**".data, fmtTitlePart item]
              ++ [d])
          = ("**".data ++ fmtSafeName feedName ++ "**".data)
            ++ (" · ".data ++ (fmtTitlePart item ++ (" · ".data ++ d))) := by
        simp [joinSep, List.append_assoc]
      rw [hjs]
      refine noMention_append_headSafe hA ?_ ?_
      · refine noMention_append_left_clean (by decide) ?_
        refine noMention_append_headSafe hTP ?_ ?_
        · exact noMention_append_left_clean (by decide) (noMention_of_no_at hd)
        · intro c hc
          have hcc : ' ' = c := by simpa using hc
          subst hcc
          decide
      · intro c hc
        have hcc : ' ' = c := by simpa using hc
        subst hcc
        decide
  rw [formatItemMessage]
  by_cases hbr1 : (fmtImageActive item && !fmtTextPrimary item) = true
  · rw [if_pos hbr1]
    have hImg : noMention
        (match fmtSafeImage item with | some im => im | none => []) := by
      cases hio : item.imageUrl with
      | none =>
        have : fmtSafeImage item = none := by rw [fmtSafeImage, hio]; rfl
        rw [this]
        exact noMention_nil
      | some u =>
        have : fmtSafeImage item = some (sanitiseUrl u) := by
          rw [fmtSafeImage, hio]; rfl
        rw [this]
        show noMention (sanitiseUrl u)
        refine noMention_of_no_at ?_
        intro hm
        have hu : '@' ∉ u := by
          rw [hio] at himg
          simpa using himg
        rcases mem_sanitiseUrl hm with h | h | h | h
        · exact hu h
        · exact absurd h (by decide)
        · exact absurd h (by decide)
        · exact absurd h (by decide)
    show noMention (fmtHeader item feedName dateStr
      ++ ('\n' :: (match fmtSafeImage item with | some im => im | none => [])))
    refine noMention_append_headSafe hHeader ?_ ?_
    · show noMention (['\n']
        ++ (match fmtSafeImage item with | some im => im | none => []))
      exact noMention_append_left_clean (by decide) hImg
    · intro c hc
      have hcc : '\n' = c := by simpa using hc
      subst hcc
      decide
  · rw [if_neg hbr1]
    by_cases hbr2 : (!(fmtSafeSummary item).isEmpty) = true
    · rw [if_pos hbr2]
      have hJQ : noMention (joinQuoted (splitLines (fmtSafeSummary item))) :=
        noMention_joinQuoted _
          (fun x hx => noMention_infix (noMention_fmtSafeSummary item)
            (splitLines_isInfix hx))
      refine noMention_append_headSafe hHeader ?_ ?_
      · show noMention (['\n'] ++ joinQuoted (splitLines (fmtSafeSummary item)))
        exact noMention_append_left_clean (by decide) hJQ
      · intro c hc
        have hcc : '\n' = c := by simpa using hc
        subst hcc
        decide
    · rw [if_neg hbr2]
      exact hHeader

/-- C9 counterexample: a title containing a carriage return inside
`@every\rone` passes `sanitise_mentions` unmatched; `_strip_newlines`
then deletes the `\r` and the rendered message contains an active
`@everyone`. -/
theorem mention_neutralization_violated :
    IsMentionToken "@everyone".data
    ∧ "@everyone".data <:+: formatItemMessage
        ⟨"@every\rone".data, [], [], [], none, none, none⟩ "F".data none :=
  ⟨IsMentionToken.everyone, ⟨"**F** · ".data, [], by decide⟩⟩

/-- C9 amended witness: the repo's own mention-injection scenario — title
`Breaking @everyone news`, summary `Hey @here check this. <@123456> cool.`,
feed name `Evil @everyone Feed` — satisfies the provisos, so the rendered
message carries no active mention. -/
theorem mention_neutralization_witness :
    (('\r' ∉ "Evil @everyone Feed".data)
      ∧ ('\r' ∉ "Breaking @everyone news".data)
      ∧ ('@' ∉ "https://example.com/a".data)
      ∧ ('@' ∉ ((none : Option (List Char)).getD []))
      ∧ ('@' ∉ ((none : Option (List Char)).getD [])))
    ∧ noMention (formatItemMessage
        ⟨"Breaking @everyone news".data, "https://example.com/a".data, [],
          "Hey @here check this. <@123456> cool.".data, none, none, none⟩
        "Evil @everyone Feed".data none) :=
  ⟨⟨by decide, by decide, by decide, by decide, by decide⟩,
   mention_neutralization
     ⟨"Breaking @everyone news".data, "https://example.com/a".data, [],
       "Hey @here check this. <@123456> cool.".data, none, none, none⟩
     "Evil @everyone Feed".data none
     (by decide) (by decide) (by decide) (by decide) (by decide)⟩
